import Mathlib

/-!
# Verification of the mcap2json CDR decoder and IDL schema extractor

A shallow embedding of the schema-driven binary decoder of
`mcap2json.py`: the primitive type table `CDR_TYPE_DECODERS`, the
IDL field extractor `parse_idl_type` (the concrete regular expressions
of the source are hand-compiled into deterministic scanners over
character lists), and the CDR record decoder `decode_cdr_message`
(embedded as `decodeField` / `decodeLoop` / `decodeCore`, with Python
exceptions made explicit in the `FieldResult` type).

Byte buffers are `List Nat` (each entry one byte), offsets are `Nat`,
and Python's unbounded integers are `Int`.  Floating-point values are
carried at the bit level (`Value.vfloat width bits`): the decoder never
computes with floats, it only transports the 4 or 8 bytes read by
`struct.unpack_from("<f"/"<d", ...)`, so the IEEE bit pattern is the
faithful observable.  Python's `\w`, `\s`, `\d` character classes are
modelled on their ASCII fragment, which covers every IDL schema text
the program consumes.
-/

namespace Mcap2Json

/-- A decoded value: the JSON-representable results produced by
`decode_cdr_message` (integers, bit-level floats, booleans, strings,
nested ordered mappings). -/
inductive Value : Type where
  | vint (n : Int)
  | vfloat (width : Nat) (bits : Nat)
  | vbool (b : Bool)
  | vstr (s : String)
  | vobj (fields : List (String × Value))
deriving Repr

/-- Interpretation tag of a `struct` format string: unsigned
little-endian integer, two's-complement signed little-endian integer,
IEEE float (kept as its bit pattern), or the `"?"` boolean format. -/
inductive Fmt : Type where
  | u | i | f | b
deriving DecidableEq, Repr

/-- One entry of the CDR type decoder lookup table: the meaning of the
`"format"` string plus the `"size"` and `"align"` fields. -/
structure PrimDecoder : Type where
  fmt : Fmt
  size : Nat
  align : Nat
deriving DecidableEq, Repr

/-- The `CDR_TYPE_DECODERS` lookup table of the source
(`"B"`, `"b"`, `"<H"`, `"<h"`, `"<I"`, `"<i"`, `"<Q"`, `"<q"`,
`"<f"`, `"<d"`, `"?"` formats with their sizes and alignments). -/
def CDR_TYPE_DECODERS : List (String × PrimDecoder) :=
  [ ("uint8",   ⟨.u, 1, 1⟩),
    ("int8",    ⟨.i, 1, 1⟩),
    ("uint16",  ⟨.u, 2, 2⟩),
    ("int16",   ⟨.i, 2, 2⟩),
    ("uint32",  ⟨.u, 4, 4⟩),
    ("int32",   ⟨.i, 4, 4⟩),
    ("uint64",  ⟨.u, 8, 8⟩),
    ("int64",   ⟨.i, 8, 8⟩),
    ("float",   ⟨.f, 4, 4⟩),
    ("double",  ⟨.f, 8, 8⟩),
    ("boolean", ⟨.b, 1, 1⟩) ]

/-- `field_type in CDR_TYPE_DECODERS` / `CDR_TYPE_DECODERS[field_type]`. -/
def lookupPrim (t : String) : Option PrimDecoder :=
  CDR_TYPE_DECODERS.lookup t

/-- Python's `(offset + align - 1) & ~(align - 1)`.  For a power-of-two
`align` and a non-negative offset this equals rounding up to the next
multiple of `align`, which is what the subtraction of the remainder
computes. -/
def pyAlign (off a : Nat) : Nat :=
  (off + a - 1) - (off + a - 1) % a

/-- Little-endian read of `w` bytes of `data` starting at `off`
(the value `struct.unpack_from` assembles; out-of-range entries read
as `0`, but every use is guarded by a bounds check first). -/
def readLE (data : List Nat) (off : Nat) : Nat → Nat
  | 0 => 0
  | w + 1 => data.getD off 0 + 256 * readLE data (off + 1) w

/-- Little-endian rendering of `n` in `w` bytes
(`struct.pack` of an unsigned value). -/
def natToLE : Nat → Nat → List Nat
  | 0, _ => []
  | w + 1, n => n % 256 :: natToLE w (n / 256)

/-- Interpret the raw little-endian value `raw` read for decoder entry
`d`, as `struct.unpack_from(d.format, ...)` would: unsigned formats
give the value itself, signed formats its two's complement, float
formats the bit pattern, and `"?"` tests the byte against zero. -/
def decodeRaw (d : PrimDecoder) (raw : Nat) : Value :=
  match d.fmt with
  | .u => .vint raw
  | .i => if raw < 2 ^ (8 * d.size - 1) then .vint raw
          else .vint ((raw : Int) - 2 ^ (8 * d.size))
  | .f => .vfloat d.size raw
  | .b => .vbool (raw != 0)

/-- Python dict assignment `m[k] = v`: overwrite in place if the key
exists, else append. -/
def dictInsert {α : Type} (m : List (String × α)) (k : String) (v : α) :
    List (String × α) :=
  if m.any (fun kv => kv.1 == k) then
    m.map (fun kv => if kv.1 == k then (kv.1, v) else kv)
  else m ++ [(k, v)]

/-! ## UTF-8 decoding with `errors='replace'`

`bytes.decode('utf-8', errors='replace')`: well-formed sequences decode
to their scalar value; each maximal ill-formed subpart is replaced by
one U+FFFD. -/

/-- The U+FFFD replacement character. -/
def replChar : Char := Char.ofNat 0xFFFD

/-- A UTF-8 continuation byte (`0x80..0xBF`). -/
def isContB (b : Nat) : Bool := 0x80 ≤ b && b ≤ 0xBF

/-- Decode a byte list as UTF-8, replacing each maximal ill-formed
subpart with U+FFFD (CPython's `errors='replace'` handler). -/
def utf8Chars : List Nat → List Char
  | [] => []
  | b :: rest =>
    if b < 0x80 then Char.ofNat b :: utf8Chars rest
    else if b < 0xC2 then replChar :: utf8Chars rest
    else if b < 0xE0 then
      match rest with
      | [] => [replChar]
      | b1 :: rest1 =>
        if isContB b1 then
          Char.ofNat ((b - 0xC0) * 64 + (b1 - 0x80)) :: utf8Chars rest1
        else replChar :: utf8Chars (b1 :: rest1)
    else if b < 0xF0 then
      match rest with
      | [] => [replChar]
      | b1 :: rest1 =>
        if (if b == 0xE0 then 0xA0 ≤ b1 && b1 ≤ 0xBF
            else if b == 0xED then 0x80 ≤ b1 && b1 ≤ 0x9F
            else isContB b1) then
          match rest1 with
          | [] => [replChar]
          | b2 :: rest2 =>
            if isContB b2 then
              Char.ofNat ((b - 0xE0) * 4096 + (b1 - 0x80) * 64 + (b2 - 0x80))
                :: utf8Chars rest2
            else replChar :: utf8Chars (b2 :: rest2)
        else replChar :: utf8Chars (b1 :: rest1)
    else if b < 0xF5 then
      match rest with
      | [] => [replChar]
      | b1 :: rest1 =>
        if (if b == 0xF0 then 0x90 ≤ b1 && b1 ≤ 0xBF
            else if b == 0xF4 then 0x80 ≤ b1 && b1 ≤ 0x8F
            else isContB b1) then
          match rest1 with
          | [] => [replChar]
          | b2 :: rest2 =>
            if isContB b2 then
              match rest2 with
              | [] => [replChar]
              | b3 :: rest3 =>
                if isContB b3 then
                  Char.ofNat ((b - 0xF0) * 262144 + (b1 - 0x80) * 4096 +
                      (b2 - 0x80) * 64 + (b3 - 0x80)) :: utf8Chars rest3
                else replChar :: utf8Chars (b3 :: rest3)
            else replChar :: utf8Chars (b2 :: rest2)
        else replChar :: utf8Chars (b1 :: rest1)
    else replChar :: utf8Chars rest

/-- `bytes(bs).decode('utf-8', errors='replace')`. -/
def utf8Replace (bs : List Nat) : String := ⟨utf8Chars bs⟩

/-! ## The IDL regular expressions, hand-compiled

The source locates record declarations and field declarations with two
concrete regular expressions,

  `struct\s+NAME\s*\x7b([^\x7b\x7d]+(?:\x7b[^\x7b\x7d]*\x7d[^\x7b\x7d]*)*)\x7d`
  `((?:\w+::)*\w+(?:\[\d*\])?)\s+(\w+)(?:\s*=\s*[^;]+)?;`

applied with `re.search` (leftmost match) and `re.finditer` (leftmost,
non-overlapping).  Both patterns are deterministic on every input — the
character classes of adjacent pieces are disjoint, so greedy matching
never needs to revisit a choice — and the scanners below compile them
piece by piece.  Recursive scanners take a fuel argument instantiated
with the input length; a successful step always consumes at least one
character, so the fuel never runs out. -/

/-- Python `\w` on its ASCII fragment. -/
def isWordChar (c : Char) : Bool := c.isAlphanum || c == '_'

/-- Python `\s` on its ASCII fragment. -/
def isSpaceChar (c : Char) : Bool :=
  c == ' ' || c == '\t' || c == '\n' || c == '\r' || c == '\x0b' || c == '\x0c'

/-- Match a literal at the head of the input; on success return the
remainder. -/
def matchLit (pat l : List Char) : Option (List Char) :=
  if pat.isPrefixOf l then some (l.drop pat.length) else none

/-- Match `\w+` at the head of the input: the maximal non-empty run of
word characters, returned with the remainder. -/
def matchWord (l : List Char) : Option (List Char × List Char) :=
  let w := l.takeWhile isWordChar
  if w.isEmpty then none else some (w, l.drop w.length)

/-- Match `(?:\w+::)*\w+` at the head of the input (fuelled).  A word
run is taken greedily; a following `::` extends the match only when
another qualified name follows, exactly as the backtracking regex
behaves. -/
def matchQualAux : Nat → List Char → Option (List Char × List Char)
  | 0, _ => none
  | fuel + 1, l =>
    let w := l.takeWhile isWordChar
    if w.isEmpty then none
    else
      match l.drop w.length with
      | ':' :: ':' :: rest2 =>
        match matchQualAux fuel rest2 with
        | some (q, r) => some (w ++ ':' :: ':' :: q, r)
        | none => some (w, l.drop w.length)
      | _ => some (w, l.drop w.length)

/-- Match `(?:\w+::)*\w+` at the head of the input. -/
def matchQual (l : List Char) : Option (List Char × List Char) :=
  matchQualAux l.length l

/-- Match `\[\d*\]` at the head of the input. -/
def matchBrackets (l : List Char) : Option (List Char × List Char) :=
  match l with
  | '[' :: rest =>
    let ds := rest.takeWhile Char.isDigit
    match rest.drop ds.length with
    | ']' :: rest2 => some ('[' :: (ds ++ [']']), rest2)
    | _ => none
  | _ => none

/-- Match the optional default-value group `\s*=\s*[^;]+` at the head
of the input; on success return the remainder (which the caller
requires to start with `;`). -/
def matchDefault (l : List Char) : Option (List Char) :=
  let s1 := l.dropWhile isSpaceChar
  match s1 with
  | '=' :: r =>
    let s2 := r.dropWhile isSpaceChar
    let body := s2.takeWhile (fun c => !(c == ';'))
    if body.isEmpty then none else some (s2.drop body.length)
  | _ => none

/-- Match the field pattern
`((?:\w+::)*\w+(?:\[\d*\])?)\s+(\w+)(?:\s*=\s*[^;]+)?;` at the head of
the input; on success return the two capture groups (raw type token and
field name) and the remainder after the `;`. -/
def matchFieldAt (l : List Char) : Option ((List Char × List Char) × List Char) :=
  match matchQual l with
  | none => none
  | some (q, r1) =>
    let tr : List Char × List Char :=
      match matchBrackets r1 with
      | some (b, r) => (q ++ b, r)
      | none => (q, r1)
    let ws := tr.2.takeWhile isSpaceChar
    if ws.isEmpty then none
    else
      match matchWord (tr.2.drop ws.length) with
      | none => none
      | some (nm, r3) =>
        match matchDefault r3 with
        | some (';' :: r5) => some ((tr.1, nm), r5)
        | some _ => none
        | none =>
          match r3 with
          | ';' :: r5 => some ((tr.1, nm), r5)
          | _ => none

/-- `re.finditer` of the field pattern: scan left to right, resume
after each match (fuelled by scan position). -/
def findFieldsAux : Nat → List Char → List (List Char × List Char)
  | 0, _ => []
  | _ + 1, [] => []
  | fuel + 1, c :: rest =>
    match matchFieldAt (c :: rest) with
    | some ((t, n), r) => (t, n) :: findFieldsAux fuel r
    | none => findFieldsAux fuel rest

/-- All field-pattern matches of a struct body, in order. -/
def findFields (l : List Char) : List (List Char × List Char) :=
  findFieldsAux l.length l

/-- Match the body group `[^\x7b\x7d]+(?:\x7b[^\x7b\x7d]*\x7d[^\x7b\x7d]*)*`
followed by `\x7d`, starting just after the opening brace: an initial
non-empty brace-free run, then whole singly-nested `\x7b...\x7d` blocks each
followed by a brace-free run, ending at the closing brace (fuelled). -/
def matchBodyLoopAux : Nat → List Char → List Char → Option (List Char × List Char)
  | 0, _, _ => none
  | fuel + 1, acc, l =>
    match l with
    | '}' :: r => some (acc, r)
    | '{' :: r =>
      let inner := r.takeWhile (fun c => !(c == '{' || c == '}'))
      match r.drop inner.length with
      | '}' :: r2 =>
        let after := r2.takeWhile (fun c => !(c == '{' || c == '}'))
        matchBodyLoopAux fuel (acc ++ '{' :: (inner ++ '}' :: after)) (r2.drop after.length)
      | _ => none
    | _ => none

/-- Match the brace-delimited struct body (capture group) plus its
closing brace; return the captured body and the remainder. -/
def matchBody (l : List Char) : Option (List Char × List Char) :=
  let chunk := l.takeWhile (fun c => !(c == '{' || c == '}'))
  if chunk.isEmpty then none
  else matchBodyLoopAux l.length chunk (l.drop chunk.length)

/-- Match `struct\s+NAME\s*\x7b(BODY)\x7d` at the head of the input for the
literal record name `nm` (the source interpolates the name into the
pattern; for the word-character names that occur in IDL it matches
literally).  Returns the captured body and the remainder. -/
def matchStructAt (nm : List Char) (l : List Char) : Option (List Char × List Char) :=
  match matchLit "struct".toList l with
  | none => none
  | some r1 =>
    let ws := r1.takeWhile isSpaceChar
    if ws.isEmpty then none
    else
      match matchLit nm (r1.drop ws.length) with
      | none => none
      | some r2 =>
        let ws2 := r2.takeWhile isSpaceChar
        match r2.drop ws2.length with
        | '{' :: r3 => matchBody r3
        | _ => none

/-- `re.search` of the struct pattern: the leftmost position where it
matches, if any; returns the captured body. -/
def searchStruct (nm : List Char) : List Char → Option (List Char)
  | [] => none
  | c :: rest =>
    match matchStructAt nm (c :: rest) with
    | some (body, _) => some body
    | none => searchStruct nm rest

/-- Match `struct\s+(\w+)\s*\x7b(BODY)\x7d` at the head of the input (the
struct-map pattern, where the record name is itself captured). -/
def matchAnyStructAt (l : List Char) : Option ((List Char × List Char) × List Char) :=
  match matchLit "struct".toList l with
  | none => none
  | some r1 =>
    let ws := r1.takeWhile isSpaceChar
    if ws.isEmpty then none
    else
      match matchWord (r1.drop ws.length) with
      | none => none
      | some (nm, r2) =>
        let ws2 := r2.takeWhile isSpaceChar
        match r2.drop ws2.length with
        | '{' :: r3 =>
          match matchBody r3 with
          | some (body, r4) => some ((nm, body), r4)
          | none => none
        | _ => none

/-- `re.finditer` of the struct-map pattern: every struct declaration
of the text, leftmost and non-overlapping, in order. -/
def findStructsAux : Nat → List Char → List (List Char × List Char)
  | 0, _ => []
  | _ + 1, [] => []
  | fuel + 1, c :: rest =>
    match matchAnyStructAt (c :: rest) with
    | some ((nm, body), r) => (nm, body) :: findStructsAux fuel r
    | none => findStructsAux fuel rest

/-- All struct declarations found anywhere in the text. -/
def findStructs (l : List Char) : List (List Char × List Char) :=
  findStructsAux l.length l

/-! ## Type-name normalization -/

/-- Python `s.replace(pat, rep)`: replace every non-overlapping
occurrence, scanning left to right (fuelled by the input length; each
step consumes at least one character when `pat` is non-empty, and both
patterns used by the source are non-empty). -/
def pyReplaceAux (pat rep : List Char) : Nat → List Char → List Char
  | _, [] => []
  | 0, l => l
  | fuel + 1, c :: rest =>
    if pat.isPrefixOf (c :: rest) && !pat.isEmpty then
      rep ++ pyReplaceAux pat rep fuel ((c :: rest).drop pat.length)
    else c :: pyReplaceAux pat rep fuel rest

/-- Python `s.replace(pat, rep)` on character lists. -/
def pyReplaceL (pat rep l : List Char) : List Char :=
  pyReplaceAux pat rep l.length l

/-- Python `s.replace(pat, rep)` on strings. -/
def pyReplace (s pat rep : String) : String :=
  ⟨pyReplaceL pat.toList rep.toList s.toList⟩

/-- The `type_mapping` alias table of the source. -/
def type_mapping (t : String) : String :=
  if t == "std_msgs_Header" then "Header"
  else if t == "builtin_interfaces_Time" then "Time"
  else if t == "octet" then "uint8"
  else t

/-- Clean up a raw type token exactly as the source does:
`replace('::', '_')`, then `replace('[]', '_array')`, then the alias
table lookup. -/
def normalizeType (t : String) : String :=
  type_mapping (pyReplace (pyReplace t "::" "_") "[]" "_array")

/-! ## `parse_idl_type` and the struct map -/

/-- Python `type_name.split("/")[-1]`: the last `/`-separated segment. -/
def lastSegment (s : String) : String :=
  ⟨(s.toList.reverse.takeWhile (fun c => !(c == '/'))).reverse⟩

/-- `parse_idl_type(idl_text, type_name)`: find the struct declaration
named by the last path segment of `type_name` (leftmost match of the
struct pattern) and extract its `(normalized type, name)` field pairs
in declaration order; an empty list when nothing matches. -/
def parse_idl_type (idl_text : String) (type_name : String) :
    List (String × String) :=
  let message_name := lastSegment type_name
  match searchStruct message_name.toList idl_text.toList with
  | none => []
  | some body =>
    (findFields body).map (fun tn => (normalizeType ⟨tn.1⟩, (⟨tn.2⟩ : String)))

/-- The struct map built at the top of `decode_cdr_message`: every
struct declaration of the IDL text, mapped (with Python dict update
semantics) to its normalized field list. -/
def build_struct_map (idl_text : String) :
    List (String × List (String × String)) :=
  (findStructs idl_text.toList).foldl
    (fun m nb =>
      dictInsert m (⟨nb.1⟩ : String)
        ((findFields nb.2).map (fun tn => (normalizeType ⟨tn.1⟩, (⟨tn.2⟩ : String)))))
    []

/-! ## The CDR record decoder

`decode_cdr_message` walks the buffer field by field.  The body of the
`for` loop sits in a `try`/`except` that turns any exception into an
`<error: ...>` value followed by `break`; `FieldResult` makes the two
outcomes explicit, carrying in both cases the value of `offset` at the
moment the field's processing ended (on the error side, the offset the
mutable variable held when the exception was raised). -/

/-- Outcome of processing one field: a decoded value with the new
offset, or a raised exception (message and the offset at raise time). -/
inductive FieldResult : Type where
  | ok (v : Value) (off : Nat)
  | err (msg : String) (off : Nat)
deriving Repr

/-- The offset a `FieldResult` carries. -/
def FieldResult.offset : FieldResult → Nat
  | .ok _ off => off
  | .err _ off => off

/-- The exception message of `struct.unpack_from` on a short buffer. -/
def unpackMsg : String := "unpack_from: buffer too short"

/-- `struct.unpack_from(d.format, data, off)`:
raises unless `off + d.size` bytes are available. -/
def unpackFrom (d : PrimDecoder) (data : List Nat) (off : Nat) :
    Except String Value :=
  if off + d.size ≤ data.length then .ok (decodeRaw d (readLE data off d.size))
  else .error unpackMsg

/-- `struct.unpack_from('<I', data, off)[0]` as a raw number
(used for string length prefixes). -/
def unpackU32 (data : List Nat) (off : Nat) : Except String Nat :=
  if off + 4 ≤ data.length then .ok (readLE data off 4)
  else .error unpackMsg

/-- Python `s.endswith(suffix)`. -/
def pyEndsWith (s suffix : String) : Bool :=
  suffix.toList.isSuffixOf s.toList

/-- The search over the struct map: the first entry whose name the
field type ends with (or equals), in insertion order. -/
def findNested (sm : List (String × List (String × String))) (ft : String) :
    Option (List (String × String)) :=
  match sm with
  | [] => none
  | (n, fs) :: rest =>
    if pyEndsWith ft n || ft == n then some fs else findNested rest ft

/-- The inner loop decoding a nested record against the remaining
slice: primitives and strings are read only when they fit (a non-fitting
read is silently skipped, though alignment and any consumed length
prefix persist), any other type becomes a `<type>` placeholder, and the
loop stops once the nested offset reaches the end of the slice. -/
def nestedLoop (remaining : List Nat) :
    List (String × String) → Nat → List (String × Value) →
    List (String × Value) × Nat
  | [], noff, nres => (nres, noff)
  | (nt, nn) :: rest, noff, nres =>
    if remaining.length ≤ noff then (nres, noff)
    else
      match lookupPrim nt with
      | some d =>
        let noff1 := pyAlign noff d.align
        if noff1 + d.size ≤ remaining.length then
          nestedLoop remaining rest (noff1 + d.size)
            (dictInsert nres nn (decodeRaw d (readLE remaining noff1 d.size)))
        else nestedLoop remaining rest noff1 nres
      | none =>
        if nt == "string" then
          let noff1 := pyAlign noff 4
          if noff1 + 4 ≤ remaining.length then
            let slen := readLE remaining noff1 4
            let noff2 := noff1 + 4
            if noff2 + slen ≤ remaining.length then
              nestedLoop remaining rest (noff2 + slen)
                (dictInsert nres nn
                  (.vstr (utf8Replace ((remaining.drop noff2).take slen))))
            else nestedLoop remaining rest noff2 nres
          else nestedLoop remaining rest noff1 nres
        else
          nestedLoop remaining rest noff
            (dictInsert nres nn (.vstr ("<" ++ nt ++ ">")))

/-- Process one field of `decode_cdr_message` starting at `off`:
the primitive branch, the `"string"` branch, the hard-coded `Header`
branch, and the nested-record branch with its unresolved-type
placeholder fallback. -/
def decodeField (data : List Nat) (sm : List (String × List (String × String)))
    (ft : String) (off : Nat) : FieldResult :=
  match lookupPrim ft with
  | some d =>
    let off1 := pyAlign off d.align
    match unpackFrom d data off1 with
    | .ok v => .ok v (off1 + d.size)
    | .error e => .err e off1
  | none =>
    if ft == "string" then
      let off1 := pyAlign off 4
      match unpackU32 data off1 with
      | .error e => .err e off1
      | .ok slen =>
        let off2 := off1 + 4
        .ok (.vstr (utf8Replace ((data.drop off2).take slen))) (off2 + slen)
    else if ft == "Header" || pyEndsWith ft "Header" then
      let off1 := pyAlign off 4
      match unpackFrom ⟨.i, 4, 4⟩ data off1 with
      | .error e => .err e off1
      | .ok sec =>
        match unpackFrom ⟨.u, 4, 4⟩ data (off1 + 4) with
        | .error e => .err e off1
        | .ok nanosec =>
          let off2 := pyAlign (off1 + 8) 4
          match unpackU32 data off2 with
          | .error e => .err e off2
          | .ok slen =>
            let off3 := off2 + 4
            .ok (.vobj [("stamp", .vobj [("sec", sec), ("nanosec", nanosec)]),
                  ("frame_id", .vstr (utf8Replace ((data.drop off3).take slen)))])
              (off3 + slen)
    else
      match findNested sm ft with
      | none => .ok (.vstr ("<" ++ ft ++ ">")) off
      | some nfs =>
        if nfs.isEmpty then .ok (.vstr ("<" ++ ft ++ ">")) off
        else
          let off1 := if off + 4 ≤ data.length then pyAlign off 4 else off
          let nr := nestedLoop (data.drop off1) nfs 0 []
          if nr.1.isEmpty then .ok (.vstr ("<" ++ ft ++ ">")) off1
          else .ok (.vobj nr.1) (off1 + nr.2)

/-- The field loop of `decode_cdr_message`: stop when the cursor has
reached the end of the buffer; on an exception record the `<error: ...>`
value and break; otherwise store the value and continue.  Returns the
result mapping together with the final offset. -/
def decodeLoop (data : List Nat) (sm : List (String × List (String × String))) :
    List (String × String) → Nat → List (String × Value) →
    List (String × Value) × Nat
  | [], off, res => (res, off)
  | (ft, fn) :: rest, off, res =>
    if data.length ≤ off then (res, off)
    else
      match decodeField data sm ft off with
      | .ok v off1 => decodeLoop data sm rest off1 (dictInsert res fn v)
      | .err e off1 =>
        (dictInsert res fn (.vstr ("<error: " ++ e ++ ">")), off1)

/-- `decode(buffer, field_list, record_map)`: run the field loop from
the fixed 4-byte CDR header offset with an empty result mapping. -/
def decodeCore (data : List Nat) (fields : List (String × String))
    (sm : List (String × List (String × String))) :
    List (String × Value) × Nat :=
  decodeLoop data sm fields 4 []

/-- `decode_cdr_message(data, fields, idl_text, ...)`: build the struct
map from the IDL text, then run the field loop. -/
def decode_cdr_message (data : List Nat) (fields : List (String × String))
    (idl_text : String) : List (String × Value) :=
  (decodeCore data fields (build_struct_map idl_text)).1

/-! ## Specification-side encoders

These are not part of the source; they render a value in the binary
format the decoder reads, to state the round-trip properties. -/

/-- `struct.pack` of a value for decoder entry `d`: unsigned values in
range render little-endian, signed values in range render as their
two's complement, floats render their bit pattern, booleans a single
`0`/`1` byte. -/
def encodePrim (d : PrimDecoder) (v : Value) : Option (List Nat) :=
  match d.fmt, v with
  | .u, .vint n =>
    if 0 ≤ n ∧ n < (256 : Int) ^ d.size then some (natToLE d.size n.toNat)
    else none
  | .i, .vint n =>
    if -((2 : Int) ^ (8 * d.size - 1)) ≤ n ∧ n < (2 : Int) ^ (8 * d.size - 1) then
      some (natToLE d.size (n % (2 : Int) ^ (8 * d.size)).toNat)
    else none
  | .f, .vfloat w bits =>
    if w = d.size ∧ bits < 256 ^ d.size then some (natToLE d.size bits) else none
  | .b, .vbool b => some (natToLE d.size (if b then 1 else 0))
  | _, _ => none

/-! ## Alignment lemmas -/

theorem pyAlign_le (off a : Nat) (ha : 0 < a) : off ≤ pyAlign off a := by
  unfold pyAlign
  have h := Nat.mod_lt (off + a - 1) ha
  omega

theorem pyAlign_lt (off a : Nat) (ha : 0 < a) : pyAlign off a < off + a := by
  unfold pyAlign
  omega

theorem pyAlign_dvd (off a : Nat) : a ∣ pyAlign off a := by
  unfold pyAlign
  have h := Nat.div_add_mod (off + a - 1) a
  exact ⟨(off + a - 1) / a, by omega⟩

theorem pyAlign_of_dvd (off a : Nat) (ha : 0 < a) (h : a ∣ off) :
    pyAlign off a = off := by
  obtain ⟨k, rfl⟩ := h
  unfold pyAlign
  have h1 : (a * k + a - 1) % a = a - 1 := by
    have h2 : a * k + a - 1 = (a - 1) + k * a := by ring_nf; omega
    rw [h2, Nat.add_mul_mod_self_right, Nat.mod_eq_of_lt (by omega)]
  omega

/-! ## Little-endian layout lemmas -/

theorem natToLE_length (w n : Nat) : (natToLE w n).length = w := by
  induction w generalizing n with
  | zero => rfl
  | succ w ih => simp [natToLE, ih]

theorem getD_append_len {α : Type} (pre : List α) (x : α) (l : List α) (d : α) :
    (pre ++ x :: l).getD pre.length d = x := by
  induction pre with
  | nil => rfl
  | cons c pre ih => simpa using ih

theorem readLE_natToLE (w : Nat) :
    ∀ (n : Nat) (pre post : List Nat),
      readLE (pre ++ (natToLE w n ++ post)) pre.length w = n % 256 ^ w := by
  induction w with
  | zero => intro n pre post; simp [readLE, Nat.mod_one]
  | succ w ih =>
    intro n pre post
    show (pre ++ (n % 256 :: (natToLE w (n / 256) ++ post))).getD pre.length 0 +
        256 * readLE (pre ++ (n % 256 :: (natToLE w (n / 256) ++ post)))
          (pre.length + 1) w = n % 256 ^ (w + 1)
    rw [getD_append_len]
    have hassoc : pre ++ (n % 256 :: (natToLE w (n / 256) ++ post)) =
        (pre ++ [n % 256]) ++ (natToLE w (n / 256) ++ post) := by
      simp
    have hlen : pre.length + 1 = (pre ++ [n % 256]).length := by simp
    rw [hassoc, hlen, ih (n / 256) (pre ++ [n % 256]) post]
    have hp : (256 : Nat) ^ (w + 1) = 256 * 256 ^ w := by ring
    rw [hp, Nat.mod_mul]

/-- Two's-complement round trip: rendering a signed value in range as
its representative modulo `2*H` and re-reading with the
`if raw < H then raw else raw - 2*H` rule restores the value. -/
theorem twosComplement_roundtrip (H : Nat) (hH : 0 < H) (n : Int)
    (h1 : -(H : Int) ≤ n) (h2 : n < (H : Int)) :
    ((if (n % (2 * (H : Int))).toNat < H
        then Value.vint ((n % (2 * (H : Int))).toNat : Int)
        else Value.vint (((n % (2 * (H : Int))).toNat : Int) - 2 * (H : Int)))
      = Value.vint n) := by
  have hT : (0 : Int) < 2 * (H : Int) := by omega
  have hnn : 0 ≤ n % (2 * (H : Int)) := Int.emod_nonneg n (by omega)
  have hlt : n % (2 * (H : Int)) < 2 * (H : Int) := Int.emod_lt_of_pos n hT
  have hkey : n % (2 * (H : Int)) = n ∨ n % (2 * (H : Int)) = n + 2 * (H : Int) := by
    rcases le_or_lt 0 n with hn | hn
    · left; exact Int.emod_eq_of_lt hn (by omega)
    · right
      have : (n + 2 * (H : Int) * 1) % (2 * (H : Int)) = n % (2 * (H : Int)) :=
        Int.add_mul_emod_self_left n (2 * (H : Int)) 1
      rw [← this, mul_one, Int.emod_eq_of_lt (by omega) (by omega)]
  rcases hkey with hk | hk <;> split <;> rename_i hc <;>
    simp only [Value.vint.injEq] <;> omega

/-! ## Primitive encode/decode round trip -/

theorem encodePrim_length (d : PrimDecoder) (v : Value) (bytes : List Nat)
    (h : encodePrim d v = some bytes) : bytes.length = d.size := by
  cases hf : d.fmt <;> cases v <;> simp only [encodePrim, hf] at h <;>
    (try exact Option.noConfusion h) <;> (try split at h) <;>
    (try exact Option.noConfusion h) <;>
    (simp only [Option.some.injEq] at h; rw [← h, natToLE_length])

theorem decodeRaw_readLE (d : PrimDecoder) (hs : 0 < d.size) (v : Value)
    (bytes : List Nat) (henc : encodePrim d v = some bytes)
    (pre post : List Nat) :
    decodeRaw d (readLE (pre ++ (bytes ++ post)) pre.length d.size) = v := by
  have hcast : ((256 : Int) ^ d.size) = ((256 ^ d.size : Nat) : Int) := by
    push_cast; ring
  have hpow : (2 : Nat) ^ (8 * d.size) = 256 ^ d.size := by
    rw [pow_mul]; norm_num
  cases hf : d.fmt <;> cases v <;> simp only [encodePrim, hf] at henc <;>
    (try exact Option.noConfusion henc)
  case u.vint n =>
    split at henc
    case isFalse => exact absurd henc (by simp)
    case isTrue hb =>
      obtain ⟨hb1, hb2⟩ := hb
      have hend : bytes = natToLE d.size n.toNat := by
        simpa using henc.symm
      subst hend
      rw [readLE_natToLE]
      have hlt : n.toNat < 256 ^ d.size := by omega
      rw [Nat.mod_eq_of_lt hlt]
      simp only [decodeRaw, hf, Value.vint.injEq]
      omega
  case i.vint n =>
    split at henc
    case isFalse => exact absurd henc (by simp)
    case isTrue hb =>
      obtain ⟨hb1, hb2⟩ := hb
      have hend : bytes = natToLE d.size (n % (2 : Int) ^ (8 * d.size)).toNat := by
        simpa using henc.symm
      subst hend
      rw [readLE_natToLE]
      have hTpos : (0 : Int) < 2 ^ (8 * d.size) := by positivity
      have hmodlt : n % (2 : Int) ^ (8 * d.size) < 2 ^ (8 * d.size) :=
        Int.emod_lt_of_pos n hTpos
      have hmodnn : (0 : Int) ≤ n % (2 : Int) ^ (8 * d.size) :=
        Int.emod_nonneg n (by positivity)
      have hcast2 : ((2 : Int) ^ (8 * d.size)) = ((2 ^ (8 * d.size) : Nat) : Int) := by
        push_cast; ring
      have hlt : (n % (2 : Int) ^ (8 * d.size)).toNat < 256 ^ d.size := by
        rw [← hpow]; omega
      rw [Nat.mod_eq_of_lt hlt]
      have hH : 0 < 2 ^ (8 * d.size - 1) := Nat.pos_pow_of_pos _ (by omega)
      have h2H : (2 : Int) * ((2 ^ (8 * d.size - 1) : Nat) : Int) =
          (2 : Int) ^ (8 * d.size) := by
        push_cast
        rw [← pow_succ']
        congr 1
        omega
      have hcastH : ((2 ^ (8 * d.size - 1) : Nat) : Int) =
          (2 : Int) ^ (8 * d.size - 1) := by
        push_cast; ring
      have hmain := twosComplement_roundtrip (2 ^ (8 * d.size - 1)) hH n
        (by rw [hcastH]; exact hb1) (by rw [hcastH]; exact hb2)
      rw [h2H] at hmain
      simpa only [decodeRaw, hf] using hmain
  case f.vfloat w bits =>
    split at henc
    case isFalse => exact absurd henc (by simp)
    case isTrue hb =>
      obtain ⟨hb1, hb2⟩ := hb
      have hend : bytes = natToLE d.size bits := by simpa using henc.symm
      subst hend
      rw [readLE_natToLE, Nat.mod_eq_of_lt hb2]
      simp [decodeRaw, hf, hb1]
  case b.vbool b =>
    have hend : bytes = natToLE d.size (if b then 1 else 0) := by
      simpa using henc.symm
    subst hend
    rw [readLE_natToLE]
    have h1 : (1 : Nat) < 256 ^ d.size :=
      Nat.one_lt_pow (by omega) (by omega)
    cases b <;>
      simp [decodeRaw, hf, Nat.mod_eq_of_lt, h1]

theorem decodeField_prim (data : List Nat)
    (sm : List (String × List (String × String))) (ft : String)
    (d : PrimDecoder) (hl : lookupPrim ft = some d) (hs : 0 < d.size)
    (v : Value) (bytes : List Nat) (henc : encodePrim d v = some bytes)
    (pre post : List Nat) (off : Nat) (hoff : pyAlign off d.align = pre.length)
    (hdata : data = pre ++ (bytes ++ post)) :
    decodeField data sm ft off = .ok v (pre.length + d.size) := by
  have hblen : bytes.length = d.size := encodePrim_length d v bytes henc
  have hfit : pre.length + d.size ≤ data.length := by
    subst hdata; simp [hblen]
  unfold decodeField
  rw [hl]
  simp only [hoff]
  unfold unpackFrom
  rw [if_pos hfit, hdata, decodeRaw_readLE d hs v bytes henc pre post]

theorem decodeCore_single_prim (nm : String) (d : PrimDecoder)
    (hl : lookupPrim nm = some d) (hs : 0 < d.size) (ha : 0 < d.align)
    (v : Value) (bytes hdrB padB : List Nat)
    (sm : List (String × List (String × String))) (fn : String)
    (henc : encodePrim d v = some bytes) (hh : hdrB.length = 4)
    (hp : padB.length = pyAlign 4 d.align - 4) :
    decodeCore (hdrB ++ (padB ++ bytes)) [(nm, fn)] sm =
      ([(fn, v)], pyAlign 4 d.align + d.size) := by
  have hble := encodePrim_length d v bytes henc
  have h4 : 4 ≤ pyAlign 4 d.align := pyAlign_le 4 d.align ha
  have hprelen : (hdrB ++ padB).length = pyAlign 4 d.align := by
    simp only [List.length_append, hh, hp]; omega
  have hfield := decodeField_prim (hdrB ++ (padB ++ bytes)) sm nm d hl hs v bytes
    henc (hdrB ++ padB) [] 4 (by rw [hprelen]) (by simp)
  have hlen : ¬ ((hdrB ++ (padB ++ bytes)).length ≤ 4) := by
    simp only [List.length_append, hh, hp, hble]; omega
  unfold decodeCore
  rw [decodeLoop, if_neg hlen, hfield]
  simp [decodeLoop, dictInsert, hprelen]

/-- C1: for every entry of the primitive type table, decoding a buffer
made of a 4-byte header-skip region, alignment padding up to the type's
alignment (the cursor is rounded up to the next multiple of the
power-of-two alignment — the first conjunct states that `pyAlign`
computes exactly that), and the value rendered in the entry's binary
format, yields exactly that value, and the cursor ends at the aligned
position plus the entry's byte size (encode-then-decode is the
identity). -/
theorem c1_primitive_table_roundtrip : ∀ (nm : String) (d : PrimDecoder),
    (nm, d) ∈ CDR_TYPE_DECODERS →
    (∀ off : Nat, d.align ∣ pyAlign off d.align ∧ off ≤ pyAlign off d.align ∧
        pyAlign off d.align < off + d.align) ∧
    ∀ (v : Value) (bytes hdrB padB : List Nat)
      (sm : List (String × List (String × String))) (fn : String),
      encodePrim d v = some bytes → hdrB.length = 4 →
      padB.length = pyAlign 4 d.align - 4 →
      decodeCore (hdrB ++ (padB ++ bytes)) [(nm, fn)] sm =
        ([(fn, v)], pyAlign 4 d.align + d.size) := by
  intro nm d hmem
  fin_cases hmem <;>
    exact ⟨fun off => ⟨pyAlign_dvd off _, pyAlign_le off _ (by norm_num),
        pyAlign_lt off _ (by norm_num)⟩,
      fun v bytes hdrB padB sm fn henc hh hp =>
        decodeCore_single_prim _ _ (by rfl) (by norm_num) (by norm_num)
          v bytes hdrB padB sm fn henc hh hp⟩

/-- Witness for C1: the `uint64` entry (alignment 8, so four padding
bytes follow the header) decoding the value `3`. -/
theorem c1_witness :
    decodeCore ([0, 0, 0, 0] ++ ([9, 9, 9, 9] ++ [3, 0, 0, 0, 0, 0, 0, 0]))
      [("uint64", "x")] [] = ([("x", Value.vint 3)], 16) :=
  (c1_primitive_table_roundtrip "uint64" ⟨.u, 8, 8⟩ (by decide)).2
    (Value.vint 3) [3, 0, 0, 0, 0, 0, 0, 0] [0, 0, 0, 0] [9, 9, 9, 9] [] "x"
    (by decide) (by decide) (by decide)

/-! ## Facts about the primitive table lookup -/

theorem mem_of_lookup_assoc {α : Type} :
    ∀ (l : List (String × α)) (t : String) (v : α),
      l.lookup t = some v → (t, v) ∈ l := by
  intro l
  induction l with
  | nil => intro t v h; exact Option.noConfusion h
  | cons kv rest ih =>
    intro t v h
    obtain ⟨k, b⟩ := kv
    rw [List.lookup] at h
    cases he : t == k <;> rw [he] at h
    · exact List.mem_cons_of_mem _ (ih t v h)
    · have ht : t = k := eq_of_beq he
      cases h
      exact ht ▸ List.mem_cons_self _ _

theorem lookupPrim_mem (t : String) (d : PrimDecoder)
    (h : lookupPrim t = some d) : (t, d) ∈ CDR_TYPE_DECODERS :=
  mem_of_lookup_assoc _ t d h

theorem lookupPrim_pos (t : String) (d : PrimDecoder)
    (h : lookupPrim t = some d) : 0 < d.size ∧ 0 < d.align := by
  have hm := lookupPrim_mem t d h
  fin_cases hm <;> exact ⟨by norm_num, by norm_num⟩

theorem lookupPrim_none_of_endsHeader (t : String)
    (h : pyEndsWith t "Header" = true) : lookupPrim t = none := by
  cases hl : lookupPrim t with
  | none => rfl
  | some d =>
    have hm := lookupPrim_mem t d hl
    fin_cases hm <;> exact absurd h (by decide)

theorem ne_string_of_endsHeader (t : String)
    (h : pyEndsWith t "Header" = true) : (t == "string") = false := by
  cases he : t == "string"
  · rfl
  · have ht : t = "string" := eq_of_beq he
    subst ht
    exact absurd h (by decide)

/-! ## C9: the decode cursor is monotone -/

theorem nestedLoop_offset_mono (remaining : List Nat) :
    ∀ (nfs : List (String × String)) (noff : Nat) (nres : List (String × Value)),
      noff ≤ (nestedLoop remaining nfs noff nres).2 := by
  intro nfs
  induction nfs with
  | nil => intro noff nres; exact Nat.le_refl _
  | cons f rest ih =>
    intro noff nres
    obtain ⟨nt, nn⟩ := f
    rw [nestedLoop]
    split
    · exact Nat.le_refl _
    · cases hl : lookupPrim nt with
      | some d =>
        have ha := (lookupPrim_pos nt d hl).2
        have h1 : noff ≤ pyAlign noff d.align := pyAlign_le noff d.align ha
        simp only
        split
        · exact le_trans (by omega) (ih _ _)
        · exact le_trans h1 (ih _ _)
      | none =>
        simp only
        split
        · have h1 : noff ≤ pyAlign noff 4 := pyAlign_le noff 4 (by norm_num)
          split
          · split
            · exact le_trans (by omega) (ih _ _)
            · exact le_trans (by omega) (ih _ _)
          · exact le_trans h1 (ih _ _)
        · exact ih _ _

theorem decodeField_offset_mono (data : List Nat)
    (sm : List (String × List (String × String))) (ft : String) (off : Nat) :
    off ≤ (decodeField data sm ft off).offset := by
  cases hl : lookupPrim ft with
  | some d =>
    have ha := (lookupPrim_pos ft d hl).2
    have h1 : off ≤ pyAlign off d.align := pyAlign_le off d.align ha
    unfold decodeField
    rw [hl]
    dsimp only
    unfold unpackFrom
    split <;> simp [FieldResult.offset] <;> omega
  | none =>
    have h5 := pyAlign_le off 4 (by norm_num)
    have h6 := pyAlign_le (pyAlign off 4 + 8) 4 (by norm_num)
    unfold decodeField
    rw [hl]
    dsimp only
    unfold unpackFrom unpackU32
    repeat' split
    all_goals simp only [FieldResult.offset]
    all_goals omega

theorem decodeLoop_offset_mono (data : List Nat)
    (sm : List (String × List (String × String))) :
    ∀ (fields : List (String × String)) (off : Nat)
      (res : List (String × Value)),
      off ≤ (decodeLoop data sm fields off res).2 := by
  intro fields
  induction fields with
  | nil => intro off res; exact Nat.le_refl _
  | cons f rest ih =>
    intro off res
    obtain ⟨ft, fn⟩ := f
    rw [decodeLoop]
    split
    · exact Nat.le_refl _
    · have hmono := decodeField_offset_mono data sm ft off
      cases hf : decodeField data sm ft off with
      | ok v off1 =>
        rw [hf] at hmono
        exact le_trans hmono (ih off1 _)
      | err e off1 =>
        rw [hf] at hmono
        exact hmono

/-- C9: the decode cursor is monotone non-decreasing throughout
decoding: every alignment rounds the offset up, every field step
(primitive, string, header, nested record, unresolved placeholder,
or raised exception) ends at an offset no smaller than it started
from, the nested inner cursor never decreases, the outer loop's final
offset is no smaller than its starting offset, and a full decode —
which starts at the fixed 4-byte header offset — ends at offset at
least 4. -/
theorem c9_cursor_monotone :
    (∀ off a : Nat, 0 < a → off ≤ pyAlign off a) ∧
    (∀ (data : List Nat) (sm : List (String × List (String × String)))
       (ft : String) (off : Nat), off ≤ (decodeField data sm ft off).offset) ∧
    (∀ (remaining : List Nat) (nfs : List (String × String)) (noff : Nat)
       (nres : List (String × Value)),
       noff ≤ (nestedLoop remaining nfs noff nres).2) ∧
    (∀ (data : List Nat) (sm : List (String × List (String × String)))
       (fields : List (String × String)) (off : Nat)
       (res : List (String × Value)),
       off ≤ (decodeLoop data sm fields off res).2) ∧
    (∀ (data : List Nat) (fields : List (String × String))
       (sm : List (String × List (String × String))),
       4 ≤ (decodeCore data fields sm).2) :=
  ⟨fun off a ha => pyAlign_le off a ha,
   decodeField_offset_mono,
   nestedLoop_offset_mono,
   decodeLoop_offset_mono,
   fun data fields sm => decodeLoop_offset_mono data sm fields 4 []⟩

/-- Witness for C9: the alignment conjunct at a concrete offset and
alignment. -/
theorem c9_witness : 0 < 8 ∧ 5 ≤ pyAlign 5 8 :=
  ⟨by decide, c9_cursor_monotone.1 5 8 (by decide)⟩

/-! ## C3: field-level exceptions are recovered locally -/

/-- C3: whenever processing a field raises an exception, the loop
stores an `<error: reason>` placeholder for that field and stops at
once: the result is the partial mapping built so far plus the error
entry, independent of the remaining fields (they are omitted), and the
decode call still returns normally — the exception, made explicit by
`FieldResult.err`, never escapes `decodeLoop`. -/
theorem c3_field_exception_recovered (data : List Nat)
    (sm : List (String × List (String × String))) (ft fn : String)
    (rest : List (String × String)) (off : Nat) (res : List (String × Value))
    (e : String) (off1 : Nat)
    (hin : off < data.length)
    (herr : decodeField data sm ft off = .err e off1) :
    decodeLoop data sm ((ft, fn) :: rest) off res =
      (dictInsert res fn (.vstr ("<error: " ++ e ++ ">")), off1) := by
  rw [decodeLoop, if_neg (by omega), herr]

/-- Witness for C3: a `uint32` read past the end of a 5-byte buffer
turns into an error placeholder and the following field is omitted. -/
theorem c3_witness :
    decodeLoop [0, 0, 0, 0, 1] [] [("uint32", "x"), ("int8", "y")] 4 [] =
      ([("x", Value.vstr "<error: unpack_from: buffer too short>")], 4) := by
  have h := c3_field_exception_recovered [0, 0, 0, 0, 1] [] "uint32" "x"
    [("int8", "y")] 4 [] unpackMsg 4 (by decide) (by rfl)
  exact h

/-! ## C4: unresolved field types -/

theorem findNested_eq_none (sm : List (String × List (String × String)))
    (ft : String)
    (h : ∀ p ∈ sm, (pyEndsWith ft p.1 || ft == p.1) = false) :
    findNested sm ft = none := by
  induction sm with
  | nil => rfl
  | cons p rest ih =>
    obtain ⟨n, fs⟩ := p
    rw [findNested]
    rw [h (n, fs) (List.mem_cons_self _ _)]
    simp only [if_false, Bool.false_eq_true]
    exact ih (fun q hq => h q (List.mem_cons_of_mem _ hq))

/-- C4: a field whose type is no primitive, not `"string"`, no header
type, and matches no record-map entry (neither by equality nor as a
suffix of the field type) gets the `<type>` placeholder value, the
cursor is not advanced, and the loop goes on decoding the following
fields from the unchanged cursor. -/
theorem c4_unresolved_type_placeholder (data : List Nat)
    (sm : List (String × List (String × String))) (ft fn : String)
    (rest : List (String × String)) (off : Nat) (res : List (String × Value))
    (hin : off < data.length)
    (hprim : lookupPrim ft = none)
    (hstr : (ft == "string") = false)
    (hhdr : (ft == "Header" || pyEndsWith ft "Header") = false)
    (hmap : ∀ p ∈ sm, (pyEndsWith ft p.1 || ft == p.1) = false) :
    decodeLoop data sm ((ft, fn) :: rest) off res =
      decodeLoop data sm rest off
        (dictInsert res fn (.vstr ("<" ++ ft ++ ">"))) := by
  have hfield : decodeField data sm ft off = .ok (.vstr ("<" ++ ft ++ ">")) off := by
    unfold decodeField
    rw [hprim]
    dsimp only
    rw [if_neg (by rw [hstr]; exact Bool.false_ne_true),
      if_neg (by rw [hhdr]; exact Bool.false_ne_true),
      findNested_eq_none sm ft hmap]
  rw [decodeLoop, if_neg (by omega), hfield]

/-- Witness for C4: an unmatched type `Foo` yields the `<Foo>`
placeholder, and the `uint8` sibling after it still reads its byte from
the unchanged offset 4. -/
theorem c4_witness :
    decodeLoop [0, 0, 0, 0, 5, 6] [("Bar", [("uint8", "z")])]
      [("Foo", "b"), ("uint8", "c")] 4 [] =
      ([("b", Value.vstr "<Foo>"), ("c", Value.vint 5)], 5) := by
  rw [c4_unresolved_type_placeholder _ _ _ _ _ _ _ (by decide) (by rfl)
    (by decide) (by decide) (by decide)]
  rfl

/-! ## C5: buffer exhaustion stops decoding without an error -/

/-- C5: when the cursor has reached or passed the end of the buffer
before a field's decode begins, decoding stops and every remaining
field is omitted (first conjunct); in particular a 3-field list against
a buffer long enough for only the first two yields a mapping holding
exactly the first two field names (remaining conjuncts). -/
theorem c5_truncated_buffer_stops :
    (∀ (data : List Nat) (sm : List (String × List (String × String)))
       (fields : List (String × String)) (off : Nat)
       (res : List (String × Value)),
       data.length ≤ off → decodeLoop data sm fields off res = (res, off)) ∧
    decodeCore [0, 0, 0, 0, 1, 0, 0, 0, 2, 0, 0, 0]
      [("uint32", "a"), ("uint32", "b"), ("uint32", "c")] [] =
      ([("a", Value.vint 1), ("b", Value.vint 2)], 12) ∧
    (decodeCore [0, 0, 0, 0, 1, 0, 0, 0, 2, 0, 0, 0]
      [("uint32", "a"), ("uint32", "b"), ("uint32", "c")] []).1.map Prod.fst =
      ["a", "b"] := by
  refine ⟨fun data sm fields off res hle => ?_, by rfl, by rfl⟩
  cases fields with
  | nil => rfl
  | cons f rest =>
    obtain ⟨ft, fn⟩ := f
    rw [decodeLoop, if_pos hle]

/-- Witness for C5: a buffer already exhausted at the starting offset
returns the accumulated (empty) mapping unchanged. -/
theorem c5_witness :
    decodeLoop [0, 0, 0] [] [("uint8", "z")] 4 [] = ([], 4) :=
  c5_truncated_buffer_stops.1 [0, 0, 0] [] [("uint8", "z")] 4 [] (by decide)

/-! ## C10: a matched record whose nested decode is empty -/

/-- Counterexample to C10 as stated: the field type `Foo` matches the
record-map entry `Foo`, the nested decode of its single `uint32` field
produces the empty mapping (only one byte remains), the field's value
is the `<Foo>` placeholder — but the outer cursor moved from 5 to 8:
the conditional 4-byte alignment performed before the nested attempt
persists, so the cursor does NOT stay unchanged. -/
theorem c10_counterexample :
    (nestedLoop (List.drop 8 [0, 0, 0, 0, 7, 0, 0, 0, 9]) [("uint32", "x")] 0 []).1
        = [] ∧
    decodeField [0, 0, 0, 0, 7, 0, 0, 0, 9] [("Foo", [("uint32", "x")])] "Foo" 5 =
      .ok (Value.vstr "<Foo>") 8 ∧ (8 : Nat) ≠ 5 :=
  ⟨by rfl, by rfl, by decide⟩

/-- C10 (amended): when the field type matches a record-map entry but
the nested decode produces an empty mapping, the field falls back to
the unresolved-type placeholder `<type>`; the outer cursor is advanced
only by the conditional 4-byte alignment applied before the nested
attempt (no alignment at all when the matched entry's field list is
empty, since the truthiness test rejects it before the nested branch
runs), never by any nested consumption. -/
theorem c10_empty_nested_fallback :
    (∀ (data : List Nat) (sm : List (String × List (String × String)))
       (ft : String) (off : Nat),
       lookupPrim ft = none → (ft == "string") = false →
       (ft == "Header" || pyEndsWith ft "Header") = false →
       findNested sm ft = some [] →
       decodeField data sm ft off = .ok (.vstr ("<" ++ ft ++ ">")) off) ∧
    (∀ (data : List Nat) (sm : List (String × List (String × String)))
       (ft : String) (off : Nat) (nfs : List (String × String)),
       lookupPrim ft = none → (ft == "string") = false →
       (ft == "Header" || pyEndsWith ft "Header") = false →
       findNested sm ft = some nfs → nfs ≠ [] →
       (nestedLoop
         (data.drop (if off + 4 ≤ data.length then pyAlign off 4 else off))
         nfs 0 []).1 = [] →
       decodeField data sm ft off =
         .ok (.vstr ("<" ++ ft ++ ">"))
           (if off + 4 ≤ data.length then pyAlign off 4 else off)) := by
  constructor
  · intro data sm ft off hprim hstr hhdr hfind
    unfold decodeField
    rw [hprim]
    dsimp only
    rw [if_neg (by rw [hstr]; exact Bool.false_ne_true),
      if_neg (by rw [hhdr]; exact Bool.false_ne_true), hfind]
    rfl
  · intro data sm ft off nfs hprim hstr hhdr hfind hne hempty
    unfold decodeField
    rw [hprim]
    dsimp only
    rw [if_neg (by rw [hstr]; exact Bool.false_ne_true),
      if_neg (by rw [hhdr]; exact Bool.false_ne_true), hfind]
    dsimp only
    rw [if_neg (by simp [List.isEmpty_iff, hne]), if_pos (by simp [List.isEmpty_iff, hempty])]

/-- Witness for C10 (amended): the concrete scenario of the
counterexample, derived from the amended statement. -/
theorem c10_witness :
    decodeField [0, 0, 0, 0, 7, 0, 0, 0, 9] [("Foo", [("uint32", "x")])] "Foo" 5 =
      .ok (Value.vstr "<Foo>") (if 5 + 4 ≤ (9 : Nat) then pyAlign 5 4 else 5) := by
  have h := c10_empty_nested_fallback.2 [0, 0, 0, 0, 7, 0, 0, 0, 9]
    [("Foo", [("uint32", "x")])] "Foo" 5 [("uint32", "x")]
    (by rfl) (by decide) (by decide) (by rfl) (by decide) (by rfl)
  exact h

/-! ## C7: string fields -/

/-- C7: a `"string"` field aligns the cursor to 4 bytes, reads the
4-byte unsigned length prefix, advances 4, takes exactly that many
bytes decoded as UTF-8 with the replacement policy, and advances by the
length (first conjunct; with a zero length the slice is empty, so the
empty string results and only the prefix is consumed).  The decoding is
total — invalid bytes produce the U+FFFD replacement character instead
of an exception (remaining conjuncts). -/
theorem c7_string_field :
    (∀ (preB strB postB : List Nat)
       (sm : List (String × List (String × String))) (off : Nat),
       pyAlign off 4 = preB.length → strB.length < 2 ^ 32 →
       decodeField (preB ++ (natToLE 4 strB.length ++ (strB ++ postB))) sm
           "string" off =
         .ok (.vstr (utf8Replace strB)) (preB.length + 4 + strB.length)) ∧
    utf8Replace [] = "" ∧
    utf8Replace [0xFF] = ⟨[replChar]⟩ := by
  refine ⟨fun preB strB postB sm off hoff hlen => ?_, rfl, rfl⟩
  unfold decodeField
  rw [show lookupPrim "string" = none from rfl]
  dsimp only
  rw [if_pos (show (("string" : String) == "string") = true from rfl)]
  rw [hoff]
  unfold unpackU32
  have hfit : preB.length + 4 ≤
      (preB ++ (natToLE 4 strB.length ++ (strB ++ postB))).length := by
    simp [natToLE_length]
  rw [if_pos hfit]
  dsimp only
  rw [readLE_natToLE]
  have hmod : strB.length % 256 ^ 4 = strB.length :=
    Nat.mod_eq_of_lt (by norm_num at hlen ⊢; omega)
  rw [hmod]
  have hassoc : preB ++ (natToLE 4 strB.length ++ (strB ++ postB)) =
      (preB ++ natToLE 4 strB.length) ++ (strB ++ postB) := by
    simp
  have hl2 : preB.length + 4 = (preB ++ natToLE 4 strB.length).length := by
    simp [natToLE_length]
  rw [hassoc, hl2, List.drop_left, List.take_left]

/-- Witness for C7: the bytes `61 FF 62` under a length prefix of 3
decode to `a`, U+FFFD, `b` with the cursor ending at 11. -/
theorem c7_witness :
    decodeField ([0, 0, 0, 0] ++ (natToLE 4 3 ++ ([0x61, 0xFF, 0x62] ++ [])))
      [] "string" 4 =
      .ok (Value.vstr ⟨['a', replChar, 'b']⟩) 11 := by
  have h := c7_string_field.1 [0, 0, 0, 0] [0x61, 0xFF, 0x62] [] [] 4
    (by rfl) (by decide)
  exact h

/-! ## C6: header fields -/

theorem unpackFrom_encoded (d : PrimDecoder) (hs : 0 < d.size) (v : Value)
    (bytes : List Nat) (henc : encodePrim d v = some bytes)
    (pre post data : List Nat) (hdata : data = pre ++ (bytes ++ post))
    (off : Nat) (hoffeq : off = pre.length)
    (hfit : off + d.size ≤ data.length) :
    unpackFrom d data off = .ok v := by
  subst hoffeq
  unfold unpackFrom
  rw [if_pos hfit, hdata]
  exact congrArg Except.ok (decodeRaw_readLE d hs v bytes henc pre post)

theorem unpackU32_encoded (L : Nat) (hL : L < 2 ^ 32) (pre post data : List Nat)
    (hdata : data = pre ++ (natToLE 4 L ++ post)) (off : Nat)
    (hoffeq : off = pre.length) (hfit : off + 4 ≤ data.length) :
    unpackU32 data off = .ok L := by
  subst hoffeq
  unfold unpackU32
  rw [if_pos hfit, hdata, readLE_natToLE,
    Nat.mod_eq_of_lt (by have := hL; norm_num at this ⊢; omega)]

theorem header_branch_taken (ft : String)
    (hft : ft = "Header" ∨ pyEndsWith ft "Header" = true) :
    lookupPrim ft = none ∧ (ft == "string") = false ∧
      (ft == "Header" || pyEndsWith ft "Header") = true := by
  have hends : pyEndsWith ft "Header" = true := by
    rcases hft with rfl | h
    · rfl
    · exact h
  exact ⟨lookupPrim_none_of_endsHeader ft hends,
    ne_string_of_endsHeader ft hends, by rw [hends, Bool.or_true]⟩

/-- C6: a field whose type is `Header` or ends with `Header` is decoded
by the hard-coded layout without consulting the record map (first
conjunct: the result does not depend on the map at all): after aligning
to 4 bytes it reads a 4-byte signed seconds value, an adjacent 4-byte
unsigned nanoseconds value (8 bytes, no padding between them), then a
4-byte-aligned length-prefixed UTF-8 string, producing the nested
`stamp`/`frame_id` mapping (second conjunct); decoding a buffer with
seconds 100, nanoseconds 200 and frame `base_link` yields exactly that
mapping (third conjunct). -/
theorem c6_header_field :
    (∀ (data : List Nat) (sm sm' : List (String × List (String × String)))
       (ft : String) (off : Nat),
       (ft = "Header" ∨ pyEndsWith ft "Header" = true) →
       decodeField data sm ft off = decodeField data sm' ft off) ∧
    (∀ (preB frameB postB : List Nat)
       (sm : List (String × List (String × String))) (ft : String)
       (off : Nat) (sec : Int) (ns : Nat),
       (ft = "Header" ∨ pyEndsWith ft "Header" = true) →
       pyAlign off 4 = preB.length →
       -(2 ^ 31) ≤ sec → sec < 2 ^ 31 → ns < 2 ^ 32 → frameB.length < 2 ^ 32 →
       decodeField
           (preB ++ (natToLE 4 ((sec % 2 ^ 32).toNat) ++ (natToLE 4 ns ++
             (natToLE 4 frameB.length ++ (frameB ++ postB))))) sm ft off =
         .ok (.vobj [("stamp", .vobj [("sec", .vint sec), ("nanosec", .vint ns)]),
             ("frame_id", .vstr (utf8Replace frameB))])
           (preB.length + 12 + frameB.length)) ∧
    decodeCore
        [0, 0, 0, 0, 100, 0, 0, 0, 200, 0, 0, 0, 9, 0, 0, 0,
         98, 97, 115, 101, 95, 108, 105, 110, 107]
        [("Header", "header")] [] =
      ([("header",
          Value.vobj [("stamp", Value.vobj [("sec", Value.vint 100),
              ("nanosec", Value.vint 200)]),
            ("frame_id", Value.vstr "base_link")])], 25) := by
  refine ⟨fun data sm sm' ft off hft => ?_, fun preB frameB postB sm ft off sec ns
    hft hoff h1 h2 h3 h4 => ?_, by rfl⟩
  · obtain ⟨hprim, hstr, hcond⟩ := header_branch_taken ft hft
    unfold decodeField
    rw [hprim]
    dsimp only
    rw [hstr, hcond]
    norm_num
  · obtain ⟨hprim, hstr, hcond⟩ := header_branch_taken ft hft
    have hstrP : ¬ ((ft == "string") = true) := by
      rw [hstr]; exact Bool.false_ne_true
    have hdvd : (4 : Nat) ∣ preB.length := hoff ▸ pyAlign_dvd off 4
    set secB := natToLE 4 ((sec % 2 ^ 32).toNat) with hsecB
    set nsB := natToLE 4 ns with hnsB
    set lenB := natToLE 4 frameB.length with hlenB
    set data := preB ++ (secB ++ (nsB ++ (lenB ++ (frameB ++ postB)))) with hdata
    have hseclen : secB.length = 4 := by rw [hsecB, natToLE_length]
    have hnslen : nsB.length = 4 := by rw [hnsB, natToLE_length]
    have hlenlen : lenB.length = 4 := by rw [hlenB, natToLE_length]
    have hdlen : data.length =
        preB.length + 12 + (frameB.length + postB.length) := by
      rw [hdata]
      simp only [List.length_append, hseclen, hnslen, hlenlen]
      omega
    unfold decodeField
    rw [hprim]
    dsimp only
    rw [if_neg hstrP, if_pos hcond, hoff]
    norm_num at h1 h2 h3
    have hsecenc : encodePrim ⟨.i, 4, 4⟩ (.vint sec) = some secB := by
      rw [hsecB]
      have hcondi : -((2 : Int) ^ (8 * (4 : Nat) - 1)) ≤ sec ∧
          sec < (2 : Int) ^ (8 * (4 : Nat) - 1) := by
        norm_num
        omega
      unfold encodePrim
      dsimp only
      rw [if_pos hcondi]
    have hsec : unpackFrom ⟨.i, 4, 4⟩ data preB.length = .ok (.vint sec) :=
      unpackFrom_encoded ⟨.i, 4, 4⟩ (by norm_num) (.vint sec) secB hsecenc
        preB (nsB ++ (lenB ++ (frameB ++ postB))) data hdata preB.length rfl
        (by show preB.length + 4 ≤ data.length; omega)
    rw [hsec]
    dsimp only
    have hnsenc : encodePrim ⟨.u, 4, 4⟩ (.vint (ns : Int)) = some nsB := by
      rw [hnsB]
      have hcondu : (0 : Int) ≤ (ns : Int) ∧
          (ns : Int) < (256 : Int) ^ (4 : Nat) := by
        constructor
        · exact Int.natCast_nonneg ns
        · norm_num
          exact_mod_cast h3
      unfold encodePrim
      dsimp only
      rw [if_pos hcondu]
      simp
    have hns : unpackFrom ⟨.u, 4, 4⟩ data (preB.length + 4) = .ok (.vint ns) :=
      unpackFrom_encoded ⟨.u, 4, 4⟩ (by norm_num) (.vint (ns : Int)) nsB hnsenc
        (preB ++ secB) (lenB ++ (frameB ++ postB)) data
        (by rw [hdata]; simp) (preB.length + 4)
        (by simp [hseclen])
        (by show preB.length + 4 + 4 ≤ data.length; omega)
    rw [hns]
    dsimp only
    have h8 : pyAlign (preB.length + 8) 4 = preB.length + 8 :=
      pyAlign_of_dvd _ 4 (by norm_num) (Nat.dvd_add hdvd (by norm_num))
    rw [h8]
    have hlenpre : unpackU32 data (preB.length + 8) = .ok frameB.length :=
      unpackU32_encoded frameB.length h4 (preB ++ (secB ++ nsB))
        (frameB ++ postB) data (by rw [hdata, hlenB]; simp) (preB.length + 8)
        (by simp [hseclen, hnslen]) (by omega)
    rw [hlenpre]
    dsimp only
    rw [show preB.length + 8 + 4 = preB.length + 12 from by omega]
    have hpre3 : (preB ++ (secB ++ (nsB ++ lenB))).length = preB.length + 12 := by
      simp only [List.length_append, hseclen, hnslen, hlenlen]
    have hassoc3 : data = (preB ++ (secB ++ (nsB ++ lenB))) ++ (frameB ++ postB) := by
      rw [hdata]; simp
    rw [hassoc3, ← hpre3, List.drop_left, List.take_left]

/-- Witness for C6: the concrete `base_link` header layout derived from
the general layout conjunct. -/
theorem c6_witness :
    decodeField
        ([0, 0, 0, 0] ++ (natToLE 4 ((100 % 2 ^ 32 : Int)).toNat ++ (natToLE 4 200 ++
          (natToLE 4 9 ++ ([98, 97, 115, 101, 95, 108, 105, 110, 107] ++ [])))))
        [] "Header" 4 =
      .ok (Value.vobj [("stamp", Value.vobj [("sec", Value.vint 100),
            ("nanosec", Value.vint 200)]),
          ("frame_id", Value.vstr (utf8Replace [98, 97, 115, 101, 95, 108, 105, 110, 107]))])
        (4 + 12 + 9) := by
  have h := c6_header_field.2.1 [0, 0, 0, 0]
    [98, 97, 115, 101, 95, 108, 105, 110, 107] [] [] "Header" 4 100 200
    (Or.inl rfl) (by rfl) (by norm_num) (by norm_num) (by norm_num) (by norm_num)
  exact h

/-! ## C8: type-name normalization -/

/-- Segments joined by a separator. -/
def joinSep (sep : List Char) : List (List Char) → List Char
  | [] => []
  | [p] => p
  | p :: q :: ps => p ++ (sep ++ joinSep sep (q :: ps))

theorem pyReplaceAux_fuel (pat rep : List Char) (hp : pat ≠ []) :
    ∀ (n : Nat) (l : List Char) (f1 f2 : Nat), l.length ≤ n →
      l.length ≤ f1 → l.length ≤ f2 →
      pyReplaceAux pat rep f1 l = pyReplaceAux pat rep f2 l := by
  have hpl : 0 < pat.length := List.length_pos.mpr hp
  intro n
  induction n with
  | zero =>
    intro l f1 f2 h0 _ _
    have hl : l = [] := List.length_eq_zero.mp (by omega)
    subst hl
    cases f1 <;> cases f2 <;> rfl
  | succ n ih =>
    intro l f1 f2 hn hf1 hf2
    cases l with
    | nil => cases f1 <;> cases f2 <;> rfl
    | cons c rest =>
      simp only [List.length_cons] at hn hf1 hf2
      cases f1 with
      | zero => omega
      | succ g1 =>
        cases f2 with
        | zero => omega
        | succ g2 =>
          simp only [pyReplaceAux]
          by_cases hc : (pat.isPrefixOf (c :: rest) && !pat.isEmpty) = true
          · rw [if_pos hc, if_pos hc]
            congr 1
            apply ih
            · simp only [List.length_drop, List.length_cons]; omega
            · simp only [List.length_drop, List.length_cons]; omega
            · simp only [List.length_drop, List.length_cons]; omega
          · rw [if_neg hc, if_neg hc]
            congr 1
            exact ih rest g1 g2 (by omega) (by omega) (by omega)

/-- A replace pass walks transparently over any region free of the
pattern's first character. -/
theorem pyReplaceL_skip (p0 : Char) (pat' rep : List Char) :
    ∀ (l t : List Char), p0 ∉ l →
      pyReplaceL (p0 :: pat') rep (l ++ t) =
        l ++ pyReplaceL (p0 :: pat') rep t := by
  intro l
  induction l with
  | nil => intro t _; simp [pyReplaceL]
  | cons c l' ih =>
    intro t h
    have hc : (p0 == c) = false := by
      apply beq_eq_false_iff_ne.mpr
      intro he
      exact h (he ▸ List.mem_cons_self c l')
    show pyReplaceAux (p0 :: pat') rep ((c :: (l' ++ t)).length) (c :: (l' ++ t)) =
      c :: (l' ++ pyReplaceL (p0 :: pat') rep t)
    simp only [List.length_cons, pyReplaceAux]
    rw [if_neg (by simp [List.isPrefixOf, hc])]
    exact congrArg (c :: ·) (ih t (fun hm => h (List.mem_cons_of_mem _ hm)))

/-- The `::` pass on a `::`-joined token rewrites every separator to
the replacement and leaves the colon-free segments intact. -/
theorem pyReplaceL_joinSep (rep : List Char) :
    ∀ (parts : List (List Char)) (t : List Char), parts ≠ [] →
      (∀ p ∈ parts, ':' ∉ p) →
      pyReplaceL [':', ':'] rep (joinSep [':', ':'] parts ++ t) =
        joinSep rep parts ++ pyReplaceL [':', ':'] rep t := by
  intro parts
  induction parts with
  | nil => intro t h _; exact absurd rfl h
  | cons p ps ih =>
    intro t _ hcf
    have hp : ':' ∉ p := hcf p (List.mem_cons_self _ _)
    cases ps with
    | nil => exact pyReplaceL_skip ':' [':'] rep p t hp
    | cons q ps' =>
      show pyReplaceL [':', ':'] rep ((p ++ ([':', ':'] ++ joinSep [':', ':'] (q :: ps'))) ++ t) = _
      rw [List.append_assoc, List.append_assoc,
        pyReplaceL_skip ':' [':'] rep p _ hp]
      show p ++ pyReplaceL [':', ':'] rep
          (':' :: ':' :: (joinSep [':', ':'] (q :: ps') ++ t)) = _
      have hstep : pyReplaceL [':', ':'] rep
          (':' :: ':' :: (joinSep [':', ':'] (q :: ps') ++ t)) =
          rep ++ pyReplaceL [':', ':'] rep (joinSep [':', ':'] (q :: ps') ++ t) := by
        show pyReplaceAux [':', ':'] rep
            ((joinSep [':', ':'] (q :: ps') ++ t).length + 1 + 1)
            (':' :: ':' :: (joinSep [':', ':'] (q :: ps') ++ t)) = _
        simp only [pyReplaceAux]
        rw [if_pos (by simp [List.isPrefixOf])]
        congr 1
        exact pyReplaceAux_fuel [':', ':'] rep (by simp) _ _ _ _
          (le_refl _) (by simp) (le_refl _)
      rw [hstep, ih t (by simp) (fun r hr => hcf r (List.mem_cons_of_mem _ hr))]
      show p ++ (rep ++ (joinSep rep (q :: ps') ++ pyReplaceL [':', ':'] rep t)) =
        (p ++ (rep ++ joinSep rep (q :: ps'))) ++ pyReplaceL [':', ':'] rep t
      simp [List.append_assoc]

theorem pyReplaceL_no_first (p0 : Char) (pat' rep l : List Char) (h : p0 ∉ l) :
    pyReplaceL (p0 :: pat') rep l = l := by
  have hthis := pyReplaceL_skip p0 pat' rep l [] h
  have h0 : pyReplaceL (p0 :: pat') rep ([] : List Char) = [] := rfl
  rw [h0, List.append_nil] at hthis
  exact hthis

theorem pyReplaceL_trailing_brackets (rep l : List Char) (h : '[' ∉ l) :
    pyReplaceL ['[', ']'] rep (l ++ ['[', ']']) = l ++ rep := by
  rw [pyReplaceL_skip '[' [']'] rep l _ h]
  congr 1
  show pyReplaceAux ['[', ']'] rep 2 ['[', ']'] = rep
  simp [pyReplaceAux, List.isPrefixOf]

theorem pyReplaceL_sized_brackets (rep l : List Char) (d0 : Char)
    (ds' : List Char) (hl : '[' ∉ l) (hd0 : d0 ≠ ']')
    (hds : '[' ∉ (d0 :: ds')) :
    pyReplaceL ['[', ']'] rep (l ++ ('[' :: (d0 :: ds' ++ [']']))) =
      l ++ ('[' :: (d0 :: ds' ++ [']'])) := by
  rw [pyReplaceL_skip '[' [']'] rep l _ hl]
  congr 1
  show pyReplaceAux ['[', ']'] rep ((d0 :: ds' ++ [']']).length + 1)
      ('[' :: (d0 :: ds' ++ [']'])) = _
  simp only [pyReplaceAux]
  rw [if_neg (by simp [List.isPrefixOf, beq_eq_false_iff_ne.mpr (Ne.symm hd0)])]
  congr 1
  have hskip := pyReplaceL_skip '[' [']'] rep (d0 :: ds') [']'] hds
  have hone : pyReplaceL ['[', ']'] rep [']'] = [']'] := by
    show pyReplaceAux ['[', ']'] rep 1 [']'] = [']']
    simp [pyReplaceAux, List.isPrefixOf]
  rw [hone] at hskip
  exact hskip

theorem mem_joinSep (sep : List Char) :
    ∀ (parts : List (List Char)) (c : Char), c ∈ joinSep sep parts →
      (∃ p ∈ parts, c ∈ p) ∨ c ∈ sep := by
  intro parts
  induction parts with
  | nil => intro c hc; exact absurd hc (List.not_mem_nil c)
  | cons p ps ih =>
    intro c hc
    cases ps with
    | nil => exact Or.inl ⟨p, List.mem_cons_self _ _, hc⟩
    | cons q ps' =>
      simp only [joinSep, List.mem_append] at hc
      rcases hc with hc | hc | hc
      · exact Or.inl ⟨p, List.mem_cons_self _ _, hc⟩
      · exact Or.inr hc
      · rcases ih c hc with ⟨r, hr, hcr⟩ | hc
        · exact Or.inl ⟨r, List.mem_cons_of_mem _ hr, hcr⟩
        · exact Or.inr hc

theorem word_ne_colon (c : Char) (h : isWordChar c = true) : c ≠ ':' := by
  intro he; subst he; exact absurd h (by decide)

theorem word_ne_lbracket (c : Char) (h : isWordChar c = true) : c ≠ '[' := by
  intro he; subst he; exact absurd h (by decide)

theorem digit_ne_rbracket (c : Char) (h : c.isDigit = true) : c ≠ ']' := by
  intro he; subst he; exact absurd h (by decide)

theorem digit_ne_lbracket (c : Char) (h : c.isDigit = true) : c ≠ '[' := by
  intro he; subst he; exact absurd h (by decide)

theorem digit_ne_colon (c : Char) (h : c.isDigit = true) : c ≠ ':' := by
  intro he; subst he; exact absurd h (by decide)

theorem colon_not_mem_joinColons (parts : List (List Char))
    (hw : ∀ p ∈ parts, ∀ c ∈ p, isWordChar c = true) :
    ∀ q ∈ parts, ':' ∉ q :=
  fun q hq hc => word_ne_colon ':' (hw q hq ':' hc) rfl

theorem lbracket_not_mem_joinUnders (parts : List (List Char))
    (hw : ∀ p ∈ parts, ∀ c ∈ p, isWordChar c = true) :
    '[' ∉ joinSep ['_'] parts := by
  intro hmem
  rcases mem_joinSep ['_'] parts '[' hmem with ⟨p, hp, hcp⟩ | hc
  · exact word_ne_lbracket '[' (hw p hp '[' hcp) rfl
  · simp at hc

/-- Counterexample to C8 as stated: a sized array-bracket suffix is NOT
collapsed to `_array` — the source only replaces the literal `[]`, so
`uint8[5]` normalizes to itself, not to `uint8_array`. -/
theorem c8_counterexample :
    normalizeType "uint8[5]" = "uint8[5]" ∧
      normalizeType "uint8[5]" ≠ "uint8_array" :=
  ⟨by rfl, by decide⟩

/-- C8 (amended): normalization is a pure total function computed by
three passes.  Every `::` separator of a qualified token collapses to
`_` (conjunct 1, with `t = []` giving the bare token, and with the
literal empty-bracket suffix `[]` collapsing to the `_array` marker);
a SIZED bracket suffix such as `[5]` is left unchanged — only the
literal `[]` is replaced (conjunct 2); and the three table aliases
`octet`, `std_msgs::Header` (after `::` collapse) and
`builtin_interfaces::Time` are substituted (conjunct 3). -/
theorem c8_normalization :
    (∀ (parts : List (List Char)), parts ≠ [] →
       (∀ p ∈ parts, ∀ c ∈ p, isWordChar c = true) →
       normalizeType ⟨joinSep [':', ':'] parts⟩ =
           type_mapping ⟨joinSep ['_'] parts⟩ ∧
       normalizeType ⟨joinSep [':', ':'] parts ++ ['[', ']']⟩ =
           type_mapping ⟨joinSep ['_'] parts ++ "_array".toList⟩) ∧
    (∀ (parts : List (List Char)) (d0 : Char) (ds' : List Char), parts ≠ [] →
       (∀ p ∈ parts, ∀ c ∈ p, isWordChar c = true) →
       d0.isDigit = true → (∀ c ∈ ds', c.isDigit = true) →
       normalizeType ⟨joinSep [':', ':'] parts ++ ('[' :: (d0 :: ds' ++ [']']))⟩ =
         type_mapping ⟨joinSep ['_'] parts ++ ('[' :: (d0 :: ds' ++ [']']))⟩) ∧
    normalizeType "octet" = "uint8" ∧
    normalizeType "std_msgs::Header" = "Header" ∧
    normalizeType "builtin_interfaces::Time" = "Time" := by
  refine ⟨fun parts hne hw => ⟨?_, ?_⟩, fun parts d0 ds' hne hw hd0 hds => ?_,
    by rfl, by rfl, by rfl⟩
  · show type_mapping ⟨pyReplaceL ['[', ']'] "_array".toList
      (pyReplaceL [':', ':'] ['_'] (joinSep [':', ':'] parts))⟩ = _
    have h1 := pyReplaceL_joinSep ['_'] parts [] hne
      (colon_not_mem_joinColons parts hw)
    simp only [List.append_nil] at h1
    rw [show pyReplaceL [':', ':'] ['_'] [] = [] from rfl, List.append_nil] at h1
    rw [h1, pyReplaceL_no_first '[' [']'] _ _
      (lbracket_not_mem_joinUnders parts hw)]
  · show type_mapping ⟨pyReplaceL ['[', ']'] "_array".toList
      (pyReplaceL [':', ':'] ['_'] (joinSep [':', ':'] parts ++ ['[', ']']))⟩ = _
    have h1 := pyReplaceL_joinSep ['_'] parts ['[', ']'] hne
      (colon_not_mem_joinColons parts hw)
    rw [show pyReplaceL [':', ':'] ['_'] ['[', ']'] = ['[', ']'] from rfl] at h1
    rw [h1, pyReplaceL_trailing_brackets _ _
      (lbracket_not_mem_joinUnders parts hw)]
  · show type_mapping ⟨pyReplaceL ['[', ']'] "_array".toList
      (pyReplaceL [':', ':'] ['_'] (joinSep [':', ':'] parts ++
        ('[' :: (d0 :: ds' ++ [']']))))⟩ = _
    have h1 := pyReplaceL_joinSep ['_'] parts ('[' :: (d0 :: ds' ++ [']'])) hne
      (colon_not_mem_joinColons parts hw)
    have h2 : pyReplaceL [':', ':'] ['_'] ('[' :: (d0 :: ds' ++ [']'])) =
        '[' :: (d0 :: ds' ++ [']']) := by
      apply pyReplaceL_no_first
      intro hmem
      rcases List.mem_cons.mp hmem with h | h
      · exact absurd h (by decide)
      · rcases List.mem_cons.mp h with h2 | h2
        · exact digit_ne_colon d0 hd0 h2.symm
        · rcases List.mem_append.mp h2 with h3 | h3
          · exact digit_ne_colon _ (hds _ h3) rfl
          · exact absurd (List.mem_singleton.mp h3) (by decide)
    rw [h2] at h1
    rw [h1, pyReplaceL_sized_brackets _ _ d0 ds'
      (lbracket_not_mem_joinUnders parts hw)
      (digit_ne_rbracket d0 hd0)
      (by intro hm; rcases List.mem_cons.mp hm with h | h
          · exact digit_ne_lbracket d0 hd0 h.symm
          · exact digit_ne_lbracket _ (hds _ h) rfl)]

/-- Witness for C8 (amended): `geometry_msgs::msg::Pose` collapses to
the flat underscore-joined token, and `uint16[7]` keeps its sized
suffix. -/
theorem c8_witness :
    normalizeType ⟨joinSep [':', ':'] [['a', 'b'], ['C', 'd']]⟩ =
        type_mapping ⟨joinSep ['_'] [['a', 'b'], ['C', 'd']]⟩ ∧
    normalizeType ⟨joinSep [':', ':'] [['u', 'v']] ++ ('[' :: ('7' :: [] ++ [']']))⟩ =
        type_mapping ⟨joinSep ['_'] [['u', 'v']] ++ ('[' :: ('7' :: [] ++ [']']))⟩ :=
  ⟨((c8_normalization.1 [['a', 'b'], ['C', 'd']] (by decide)
      (by decide)).1),
   c8_normalization.2.1 [['u', 'v']] '7' [] (by decide) (by decide)
     (by decide) (by decide)⟩

/-! ## C2: IDL field extraction

To quantify over "IDL texts containing a record declaration", a
declaration is rendered from structured data: a record name, and field
declarations made of a qualified type token (namespace segments,
optional array brackets) and a field name.  The rendered text can be
wrapped in arbitrary text before and after; "the text contains the
declaration" is expressed by the rendering plus the condition that the
struct pattern matches at no earlier position. -/

/-- A structured field declaration of an IDL struct body. -/
structure FieldDecl : Type where
  parts : List (List Char)
  arr : Option (List Char)
  fname : List Char

/-- The raw type token as written: segments joined by `::`, optionally
suffixed by `[contents]`. -/
def FieldDecl.typeTok (f : FieldDecl) : List Char :=
  joinSep [':', ':'] f.parts ++
    (match f.arr with | none => [] | some ds => '[' :: (ds ++ [']']))

/-- The rendered declaration `type name;`. -/
def FieldDecl.render (f : FieldDecl) : List Char :=
  f.typeTok ++ (' ' :: (f.fname ++ [';']))

/-- Well-formedness of a field declaration: non-empty word-character
segments and name, digit-only bracket contents. -/
def goodField (f : FieldDecl) : Bool :=
  !f.parts.isEmpty &&
  f.parts.all (fun p => !p.isEmpty && p.all isWordChar) &&
  (match f.arr with | none => true | some ds => ds.all Char.isDigit) &&
  (!f.fname.isEmpty && f.fname.all isWordChar)

/-- A well-formed record name: a non-empty word-character identifier. -/
def goodName (nm : List Char) : Bool := !nm.isEmpty && nm.all isWordChar

/-- The rendered struct body: each declaration preceded by one space,
one trailing space (so the body is never empty). -/
def renderBody (fs : List FieldDecl) : List Char :=
  (fs.map (fun f => ' ' :: f.render)).flatten ++ [' ']

/-- The rendered struct declaration `struct NAME { BODY }`. -/
def renderStruct (nm : List Char) (fs : List FieldDecl) : List Char :=
  "struct".toList ++ (' ' :: (nm ++ (' ' :: '{' :: (renderBody fs ++ ['}']))))

theorem takeWhile_append_of (p : Char → Bool) :
    ∀ (w rest : List Char), (∀ c ∈ w, p c = true) →
      (rest = [] ∨ ∃ c cs, rest = c :: cs ∧ p c = false) →
      (w ++ rest).takeWhile p = w := by
  intro w
  induction w with
  | nil =>
    intro rest _ hr
    rcases hr with rfl | ⟨c, cs, rfl, hc⟩
    · rfl
    · simp [List.takeWhile_cons, hc]
  | cons a w' ih =>
    intro rest hall hr
    have ha : p a = true := hall a (List.mem_cons_self _ _)
    simp only [List.cons_append, List.takeWhile_cons, ha, if_true]
    rw [ih rest (fun c hc => hall c (List.mem_cons_of_mem _ hc)) hr]

theorem matchWord_render (w rest : List Char) (hw : w ≠ [])
    (hall : ∀ c ∈ w, isWordChar c = true)
    (hrest : rest = [] ∨ ∃ c cs, rest = c :: cs ∧ isWordChar c = false) :
    matchWord (w ++ rest) = some (w, rest) := by
  unfold matchWord
  rw [takeWhile_append_of isWordChar w rest hall hrest]
  rw [if_neg (by simp [List.isEmpty_iff, hw]), List.drop_left]

theorem matchLit_append (pat x : List Char) :
    matchLit pat (pat ++ x) = some x := by
  unfold matchLit
  rw [if_pos (List.isPrefixOf_iff_prefix.mpr (List.prefix_append _ _)),
    List.drop_left]

theorem word_not_space (c : Char) (h : isWordChar c = true) :
    isSpaceChar c = false := by
  cases hs : isSpaceChar c
  · rfl
  · exfalso
    simp only [isSpaceChar, Bool.or_eq_true, beq_iff_eq] at hs
    rcases hs with ((((rfl | rfl) | rfl) | rfl) | rfl) | rfl <;>
      exact absurd h (by decide)

theorem matchQualAux_render :
    ∀ (parts : List (List Char)) (rest : List Char) (fuel : Nat),
      parts ≠ [] →
      (∀ p ∈ parts, p ≠ [] ∧ ∀ c ∈ p, isWordChar c = true) →
      (rest = [] ∨ ∃ c cs, rest = c :: cs ∧ isWordChar c = false ∧ c ≠ ':') →
      (joinSep [':', ':'] parts).length ≤ fuel →
      matchQualAux fuel (joinSep [':', ':'] parts ++ rest) =
        some (joinSep [':', ':'] parts, rest) := by
  intro parts
  induction parts with
  | nil => intro rest fuel h; exact absurd rfl h
  | cons p ps ih =>
    intro rest fuel _ hgood hrest hfuel
    obtain ⟨hpne, hpw⟩ := hgood p (List.mem_cons_self _ _)
    have hplen : 0 < p.length := List.length_pos.mpr hpne
    cases ps with
    | nil =>
      simp only [joinSep] at hfuel ⊢
      cases fuel with
      | zero => omega
      | succ g =>
        rw [matchQualAux,
          takeWhile_append_of isWordChar p rest hpw
            (by rcases hrest with rfl | ⟨c, cs, rfl, hc, _⟩
                · exact Or.inl rfl
                · exact Or.inr ⟨c, cs, rfl, hc⟩),
          if_neg (by simp [List.isEmpty_iff, hpne]), List.drop_left]
        rcases hrest with rfl | ⟨c, cs, rfl, hcw, hc⟩
        · rfl
        · split
          · rename_i rest2 heq
            injection heq with h1 _
            exact absurd h1 hc
          · rfl
    | cons q ps' =>
      have hass : joinSep [':', ':'] (p :: q :: ps') ++ rest =
          p ++ (':' :: ':' :: (joinSep [':', ':'] (q :: ps') ++ rest)) := by
        simp [joinSep]
      have hlen : (joinSep [':', ':'] (p :: q :: ps')).length =
          p.length + 2 + (joinSep [':', ':'] (q :: ps')).length := by
        simp [joinSep]
        omega
      cases fuel with
      | zero => omega
      | succ g =>
        rw [hass, matchQualAux,
          takeWhile_append_of isWordChar p _ hpw
            (Or.inr ⟨':', _, rfl, by decide⟩),
          if_neg (by simp [List.isEmpty_iff, hpne]), List.drop_left]
        have hrec := ih rest g (by simp)
          (fun r hr => hgood r (List.mem_cons_of_mem _ hr)) hrest (by omega)
        split
        · rename_i rest2 heq
          injection heq with _ heq2
          injection heq2 with _ heq3
          subst heq3
          rw [hrec]
          simp [joinSep]
        · rename_i hno
          exact absurd rfl (hno (joinSep [':', ':'] (q :: ps') ++ rest))

theorem matchBrackets_none (c : Char) (l : List Char) (hc : c ≠ '[') :
    matchBrackets (c :: l) = none := by
  unfold matchBrackets
  split
  · rename_i rest heq
    injection heq with h1 _
    exact absurd h1 hc
  · rfl

theorem matchBrackets_render (ds rest : List Char)
    (hds : ∀ c ∈ ds, c.isDigit = true) :
    matchBrackets ('[' :: (ds ++ (']' :: rest))) =
      some ('[' :: (ds ++ [']']), rest) := by
  unfold matchBrackets
  split
  · rename_i rest0 heq
    injection heq with _ h2
    subst h2
    rw [takeWhile_append_of Char.isDigit ds (']' :: rest) hds
      (Or.inr ⟨']', rest, rfl, by decide⟩)]
    dsimp only
    rw [List.drop_left]
    split
    · rename_i rest2 heq2
      injection heq2 with _ h4
      subst h4
      rfl
    · rename_i hno
      exact absurd rfl (hno rest)
  · rename_i hno
    exact absurd rfl (hno (ds ++ (']' :: rest)))

theorem matchDefault_semicolon (r : List Char) : matchDefault (';' :: r) = none :=
  rfl

theorem matchFieldAt_render (f : FieldDecl) (rest : List Char)
    (hf : goodField f = true) :
    matchFieldAt (f.render ++ rest) = some ((f.typeTok, f.fname), rest) := by
  obtain ⟨parts, arr, fname⟩ := f
  unfold goodField at hf
  rw [Bool.and_eq_true] at hf
  obtain ⟨hL, hR⟩ := hf
  rw [Bool.and_eq_true] at hL
  obtain ⟨hLL, h3⟩ := hL
  rw [Bool.and_eq_true] at hLL
  obtain ⟨h1, h2⟩ := hLL
  rw [Bool.and_eq_true] at hR
  obtain ⟨h4, h5⟩ := hR
  dsimp only at h1 h2 h3 h4 h5
  have hne : parts ≠ [] := by intro he; subst he; simp at h1
  have hgood : ∀ p ∈ parts, p ≠ [] ∧ ∀ c ∈ p, isWordChar c = true := by
    intro p hp
    rw [List.all_eq_true] at h2
    have := h2 p hp
    rw [Bool.and_eq_true] at this
    refine ⟨fun he => by subst he; simp at this, ?_⟩
    intro c hc
    exact List.all_eq_true.mp this.2 c hc
  have hfne : fname ≠ [] := by intro he; subst he; simp at h4
  have hfw : ∀ c ∈ fname, isWordChar c = true := List.all_eq_true.mp h5
  obtain ⟨fc, fr, hfcons⟩ : ∃ c cs, fname = c :: cs := by
    cases fname with
    | nil => exact absurd rfl hfne
    | cons c cs => exact ⟨c, cs, rfl⟩
  have hfcw : isWordChar fc = true :=
    hfw fc (by rw [hfcons]; exact List.mem_cons_self fc fr)
  cases arr with
  | none =>
    have htok : FieldDecl.typeTok ⟨parts, none, fname⟩ = joinSep [':', ':'] parts := by
      simp [FieldDecl.typeTok]
    have hl : FieldDecl.render ⟨parts, none, fname⟩ ++ rest =
        joinSep [':', ':'] parts ++ (' ' :: (fname ++ (';' :: rest))) := by
      simp [FieldDecl.render, htok]
    rw [hl]
    unfold matchFieldAt
    rw [show matchQual (joinSep [':', ':'] parts ++ (' ' :: (fname ++ (';' :: rest)))) =
        some (joinSep [':', ':'] parts, ' ' :: (fname ++ (';' :: rest))) from
      matchQualAux_render parts _ _ hne hgood
        (Or.inr ⟨' ', _, rfl, by decide, by decide⟩)
        (by simp [matchQual])]
    dsimp only
    rw [matchBrackets_none ' ' _ (by decide)]
    dsimp only
    rw [show (' ' :: (fname ++ (';' :: rest))).takeWhile isSpaceChar = [' '] from
      takeWhile_append_of isSpaceChar [' '] _ (by simp [isSpaceChar])
        (Or.inr ⟨fc, _, by rw [hfcons]; rfl, word_not_space fc hfcw⟩)]
    rw [if_neg (by simp)]
    rw [show (' ' :: (fname ++ (';' :: rest))).drop [' '].length =
        fname ++ (';' :: rest) from rfl]
    rw [matchWord_render fname (';' :: rest) hfne hfw
      (Or.inr ⟨';', rest, rfl, by decide⟩)]
    dsimp only
    rw [matchDefault_semicolon]
    dsimp only
    rw [htok]
    split
    · rename_i r5 heq
      injection heq with _ h7
      subst h7
      rfl
    · rename_i hno
      exact absurd rfl (hno rest)
  | some ds =>
    have hds : ∀ c ∈ ds, c.isDigit = true := List.all_eq_true.mp h3
    have htok : FieldDecl.typeTok ⟨parts, some ds, fname⟩ =
        joinSep [':', ':'] parts ++ ('[' :: (ds ++ [']'])) := by
      simp [FieldDecl.typeTok]
    have hl : FieldDecl.render ⟨parts, some ds, fname⟩ ++ rest =
        joinSep [':', ':'] parts ++
          ('[' :: (ds ++ (']' :: (' ' :: (fname ++ (';' :: rest)))))) := by
      simp [FieldDecl.render, htok]
    rw [hl]
    unfold matchFieldAt
    rw [show matchQual (joinSep [':', ':'] parts ++
        ('[' :: (ds ++ (']' :: (' ' :: (fname ++ (';' :: rest))))))) =
        some (joinSep [':', ':'] parts,
          '[' :: (ds ++ (']' :: (' ' :: (fname ++ (';' :: rest)))))) from
      matchQualAux_render parts _ _ hne hgood
        (Or.inr ⟨'[', _, rfl, by decide, by decide⟩)
        (by simp [matchQual])]
    dsimp only
    rw [matchBrackets_render ds _ hds]
    dsimp only
    rw [show (' ' :: (fname ++ (';' :: rest))).takeWhile isSpaceChar = [' '] from
      takeWhile_append_of isSpaceChar [' '] _ (by simp [isSpaceChar])
        (Or.inr ⟨fc, _, by rw [hfcons]; rfl, word_not_space fc hfcw⟩)]
    rw [if_neg (by simp)]
    rw [show (' ' :: (fname ++ (';' :: rest))).drop [' '].length =
        fname ++ (';' :: rest) from rfl]
    rw [matchWord_render fname (';' :: rest) hfne hfw
      (Or.inr ⟨';', rest, rfl, by decide⟩)]
    dsimp only
    rw [matchDefault_semicolon]
    dsimp only
    rw [htok]
    split
    · rename_i r5 heq
      injection heq with _ h7
      subst h7
      rfl
    · rename_i hno
      exact absurd rfl (hno rest)

theorem matchFieldAt_not_word (c : Char) (l : List Char)
    (hc : isWordChar c = false) : matchFieldAt (c :: l) = none := by
  have hq : matchQual (c :: l) = none := by
    unfold matchQual
    rw [List.length_cons, matchQualAux,
      show (c :: l).takeWhile isWordChar = [] from by
        simp [List.takeWhile_cons, hc],
      if_pos (by simp)]
  unfold matchFieldAt
  rw [hq]

theorem findFieldsAux_cons_eq (fuel : Nat) (c : Char) (rest : List Char) :
    findFieldsAux (fuel + 1) (c :: rest) =
      match matchFieldAt (c :: rest) with
      | some ((t, n), r) => (t, n) :: findFieldsAux fuel r
      | none => findFieldsAux fuel rest := rfl

theorem render_length_pos (f : FieldDecl) : 0 < f.render.length := by
  simp [FieldDecl.render]

theorem findFieldsAux_render :
    ∀ (fs : List FieldDecl) (fuel : Nat),
      (∀ f ∈ fs, goodField f = true) →
      (renderBody fs).length ≤ fuel →
      findFieldsAux fuel (renderBody fs) =
        fs.map (fun f => (f.typeTok, f.fname)) := by
  intro fs
  induction fs with
  | nil =>
    intro fuel _ hfuel
    have hr : renderBody [] = [' '] := rfl
    rw [hr] at hfuel ⊢
    cases fuel with
    | zero => simp at hfuel
    | succ g =>
      rw [findFieldsAux_cons_eq, matchFieldAt_not_word ' ' [] (by decide)]
      cases g <;> rfl
  | cons f fs' ih =>
    intro fuel hgood hfuel
    have hren : renderBody (f :: fs') = ' ' :: (f.render ++ renderBody fs') := by
      simp [renderBody]
    rw [hren] at hfuel ⊢
    have hrlen : 0 < f.render.length := render_length_pos f
    simp only [List.length_cons, List.length_append] at hfuel
    cases fuel with
    | zero => omega
    | succ g =>
      rw [findFieldsAux_cons_eq, matchFieldAt_not_word ' ' _ (by decide)]
      cases g with
      | zero => omega
      | succ g2 =>
        obtain ⟨c, cs, hfr⟩ : ∃ c cs, f.render = c :: cs := by
          cases hh : f.render with
          | nil => rw [hh] at hrlen; simp at hrlen
          | cons c cs => exact ⟨c, cs, rfl⟩
        rw [hfr, List.cons_append, findFieldsAux_cons_eq, ← List.cons_append,
          ← hfr, matchFieldAt_render f _ (hgood f (List.mem_cons_self _ _))]
        dsimp only
        rw [ih g2 (fun x hx => hgood x (List.mem_cons_of_mem _ hx)) (by omega)]
        rfl

theorem word_not_brace (c : Char) (h : isWordChar c = true) :
    (c == '{' || c == '}') = false := by
  cases hb : (c == '{' || c == '}')
  · rfl
  · exfalso
    simp only [Bool.or_eq_true, beq_iff_eq] at hb
    rcases hb with rfl | rfl <;> exact absurd h (by decide)

theorem digit_not_brace (c : Char) (h : c.isDigit = true) :
    (c == '{' || c == '}') = false := by
  cases hb : (c == '{' || c == '}')
  · rfl
  · exfalso
    simp only [Bool.or_eq_true, beq_iff_eq] at hb
    rcases hb with rfl | rfl <;> exact absurd h (by decide)

theorem render_not_brace (f : FieldDecl) (hf : goodField f = true) :
    ∀ c ∈ f.render, (c == '{' || c == '}') = false := by
  obtain ⟨parts, arr, fname⟩ := f
  unfold goodField at hf
  rw [Bool.and_eq_true] at hf
  obtain ⟨hL, hR⟩ := hf
  rw [Bool.and_eq_true] at hL
  obtain ⟨hLL, h3⟩ := hL
  rw [Bool.and_eq_true] at hLL
  obtain ⟨h1, h2⟩ := hLL
  rw [Bool.and_eq_true] at hR
  obtain ⟨h4, h5⟩ := hR
  dsimp only at h2 h3 h5
  have hjoin : ∀ c ∈ joinSep [':', ':'] parts, (c == '{' || c == '}') = false := by
    intro c hc
    rcases mem_joinSep [':', ':'] parts c hc with ⟨p, hp, hcp⟩ | h
    · have hp2 := List.all_eq_true.mp h2 p hp
      rw [Bool.and_eq_true] at hp2
      exact word_not_brace c (List.all_eq_true.mp hp2.2 c hcp)
    · rcases List.mem_cons.mp h with rfl | h
      · rfl
      · rcases List.mem_cons.mp h with rfl | h
        · rfl
        · exact absurd h (List.not_mem_nil c)
  intro c hc
  unfold FieldDecl.render FieldDecl.typeTok at hc
  dsimp only at hc
  rcases List.mem_append.mp hc with hc | hc
  · rcases List.mem_append.mp hc with hc | hc
    · exact hjoin c hc
    · cases arr with
      | none => exact absurd hc (List.not_mem_nil c)
      | some ds =>
        dsimp only at hc h3
        rcases List.mem_cons.mp hc with rfl | hc
        · rfl
        · rcases List.mem_append.mp hc with hc | hc
          · exact digit_not_brace c (List.all_eq_true.mp h3 c hc)
          · rcases List.mem_singleton.mp hc with rfl
            rfl
  · rcases List.mem_cons.mp hc with rfl | hc
    · rfl
    · rcases List.mem_append.mp hc with hc | hc
      · exact word_not_brace c (List.all_eq_true.mp h5 c hc)
      · rcases List.mem_singleton.mp hc with rfl
        rfl

theorem renderBody_not_brace (fs : List FieldDecl)
    (hfs : ∀ f ∈ fs, goodField f = true) :
    ∀ c ∈ renderBody fs, (fun c => !(c == '{' || c == '}')) c = true := by
  intro c hc
  simp only [renderBody, List.mem_append, List.mem_singleton,
    List.mem_flatten, List.mem_map] at hc
  have hnb : (c == '{' || c == '}') = false := by
    rcases hc with ⟨l, ⟨f, hf, rfl⟩, hcl⟩ | rfl
    · rcases List.mem_cons.mp hcl with rfl | hcl
      · rfl
      · exact render_not_brace f (hfs f hf) c hcl
    · rfl
  simp [hnb]

theorem renderBody_ne_nil (fs : List FieldDecl) : renderBody fs ≠ [] := by
  simp [renderBody]

theorem matchStructAt_render (nm : List Char) (fs : List FieldDecl)
    (post : List Char) (hnm : goodName nm = true)
    (hfs : ∀ f ∈ fs, goodField f = true) :
    matchStructAt nm (renderStruct nm fs ++ post) =
      some (renderBody fs, post) := by
  unfold goodName at hnm
  rw [Bool.and_eq_true] at hnm
  obtain ⟨hn1, hn2⟩ := hnm
  have hnne : nm ≠ [] := by intro he; subst he; simp at hn1
  have hnw : ∀ c ∈ nm, isWordChar c = true := List.all_eq_true.mp hn2
  obtain ⟨n0, nr, hncons⟩ : ∃ c cs, nm = c :: cs := by
    cases hh : nm with
    | nil => exact absurd hh hnne
    | cons c cs => exact ⟨c, cs, rfl⟩
  have hn0w : isWordChar n0 = true :=
    hnw n0 (by rw [hncons]; exact List.mem_cons_self _ _)
  have hl : renderStruct nm fs ++ post =
      "struct".toList ++
        (' ' :: (nm ++ (' ' :: '{' :: (renderBody fs ++ ('}' :: post))))) := by
    simp [renderStruct]
  rw [hl]
  unfold matchStructAt
  rw [matchLit_append]
  dsimp only
  rw [show (' ' :: (nm ++ (' ' :: '{' :: (renderBody fs ++ ('}' :: post))))).takeWhile
        isSpaceChar = [' '] from
    takeWhile_append_of isSpaceChar [' '] _ (by simp [isSpaceChar])
      (Or.inr ⟨n0, _, by rw [hncons]; rfl, word_not_space n0 hn0w⟩)]
  rw [if_neg (by simp)]
  rw [show (' ' :: (nm ++ (' ' :: '{' :: (renderBody fs ++ ('}' :: post))))).drop
        [' '].length = nm ++ (' ' :: '{' :: (renderBody fs ++ ('}' :: post)))
      from rfl]
  rw [matchLit_append]
  dsimp only
  rw [show (' ' :: '{' :: (renderBody fs ++ ('}' :: post))).takeWhile isSpaceChar
        = [' '] from
    takeWhile_append_of isSpaceChar [' '] _ (by simp [isSpaceChar])
      (Or.inr ⟨'{', _, rfl, by decide⟩)]
  rw [show (' ' :: '{' :: (renderBody fs ++ ('}' :: post))).drop [' '].length =
      '{' :: (renderBody fs ++ ('}' :: post)) from rfl]
  split
  · rename_i r3 heq
    injection heq with _ h2
    subst h2
    unfold matchBody
    rw [takeWhile_append_of (fun c => !(c == '{' || c == '}'))
      (renderBody fs) ('}' :: post) (renderBody_not_brace fs hfs)
      (Or.inr ⟨'}', post, rfl, by decide⟩)]
    rw [if_neg (by simp [List.isEmpty_iff, renderBody_ne_nil fs]), List.drop_left]
    have hlen : (renderBody fs ++ ('}' :: post)).length =
        ((renderBody fs).length + post.length) + 1 := by
      simp only [List.length_append, List.length_cons]
      omega
    rw [hlen, matchBodyLoopAux]
  · rename_i hno
    exact absurd rfl (hno (renderBody fs ++ ('}' :: post)))

theorem matchStructAt_nil (nm : List Char) : matchStructAt nm [] = none := by
  unfold matchStructAt matchLit
  rw [if_neg (by simp [List.isPrefixOf_iff_prefix])]

theorem searchStruct_found (nm : List Char) :
    ∀ (k : Nat) (L body r : List Char),
      (∀ i < k, matchStructAt nm (L.drop i) = none) →
      matchStructAt nm (L.drop k) = some (body, r) →
      searchStruct nm L = some body := by
  intro k
  induction k with
  | zero =>
    intro L body r _ hk
    rw [List.drop_zero] at hk
    cases L with
    | nil => rw [matchStructAt_nil] at hk; exact Option.noConfusion hk
    | cons c rest =>
      rw [searchStruct, hk]
  | succ k ih =>
    intro L body r hnone hk
    cases L with
    | nil =>
      rw [List.drop_nil, matchStructAt_nil] at hk
      exact Option.noConfusion hk
    | cons c rest =>
      have h0 : matchStructAt nm (c :: rest) = none := by
        have := hnone 0 (Nat.succ_pos k)
        rwa [List.drop_zero] at this
      rw [searchStruct, h0]
      exact ih rest body r
        (fun i hi => by
          have := hnone (i + 1) (by omega)
          rwa [List.drop_succ_cons] at this)
        (by rwa [List.drop_succ_cons] at hk)

theorem searchStruct_none (nm : List Char) :
    ∀ (L : List Char), (∀ i, matchStructAt nm (L.drop i) = none) →
      searchStruct nm L = none := by
  intro L
  induction L with
  | nil => intro _; rfl
  | cons c rest ih =>
    intro h
    have h0 : matchStructAt nm (c :: rest) = none := by
      have := h 0
      rwa [List.drop_zero] at this
    rw [searchStruct, h0]
    exact ih (fun i => by
      have := h (i + 1)
      rwa [List.drop_succ_cons] at this)

/-- C2: `parse_idl_type` applied to any text containing the rendered
record declaration `struct R { fields }` — where the struct pattern
matches at no position inside the leading wrapper text — and to any
type name whose last `/`-separated path segment is `R`, returns exactly
the declared fields, as (normalized type, name) pairs, in declaration
order (first conjunct).  On any text in which the struct pattern for
the requested last path segment matches nowhere, it returns the empty
field list (second conjunct) — and being a total function, it raises
nothing. -/
theorem c2_extract_fields :
    (∀ (preC postC nm pathC : List Char) (fs : List FieldDecl),
       goodName nm = true → (∀ f ∈ fs, goodField f = true) →
       lastSegment ⟨pathC⟩ = ⟨nm⟩ →
       (∀ i < preC.length,
         matchStructAt nm ((preC ++ (renderStruct nm fs ++ postC)).drop i) = none) →
       parse_idl_type ⟨preC ++ (renderStruct nm fs ++ postC)⟩ ⟨pathC⟩ =
         fs.map (fun f => (normalizeType ⟨f.typeTok⟩, (⟨f.fname⟩ : String)))) ∧
    (∀ (idl path : String),
       (∀ i, matchStructAt (lastSegment path).toList (idl.toList.drop i) = none) →
       parse_idl_type idl path = []) := by
  constructor
  · intro preC postC nm pathC fs hnm hfs hpath hpre
    unfold parse_idl_type
    rw [hpath]
    have hsearch : searchStruct nm (preC ++ (renderStruct nm fs ++ postC)) =
        some (renderBody fs) := by
      apply searchStruct_found nm preC.length _ (renderBody fs) postC hpre
      rw [List.drop_left]
      exact matchStructAt_render nm fs postC hnm hfs
    dsimp only [String.toList]
    rw [hsearch]
    dsimp only
    unfold findFields
    rw [findFieldsAux_render fs (renderBody fs).length hfs (Nat.le_refl _),
      List.map_map]
    rfl
  · intro idl path hall
    unfold parse_idl_type
    dsimp only
    rw [searchStruct_none _ _ hall]

/-- Witness for C2: a three-segment path locating the rendered
single-field struct. -/
theorem c2_witness :
    parse_idl_type "struct Msg \x7b int32 x; \x7d" "pkg/msg/Msg" =
      [("int32", "x")] := by
  have h := c2_extract_fields.1 [] [] "Msg".toList "pkg/msg/Msg".toList
    [⟨[['i', 'n', 't', '3', '2']], none, ['x']⟩]
    (by decide) (by decide) (by decide)
    (fun i hi => absurd hi (Nat.not_lt_zero i))
  exact h

end Mcap2Json
